import Mathlib

/-!
# Verification of the pod-affinity mutating webhook

A shallow embedding of `pkg/mutatingwebhook/mutatingwebhook.go`:

* a canonical JSON document model (objects are key-sorted association
  lists, the canonical representative of a parsed Go `map[string]interface`)
  together with RFC 6902-style patch operations, application, and the
  patch-generation (diff) algorithm used by `generateJsonPatch`;
* the SHA-256 based `getPodAffinityValue` derivation;
* the admission path `Admit` / `mutatePodAffinity` /
  `mergeAffinityWithAffinityAssistant` over a `Pod` model restricted to the
  fields the webhook reads and writes (labels, annotations, affinity);
* the reconciliation path `Reconcile` / `reconcileMutatingWebhook` with
  explicit read/write effect accounting.

Machine integers are modelled as `Nat` with explicit reduction modulo
`2 ^ 32` where the Go code relies on 32-bit wraparound (SHA-256).
-/

set_option linter.unnecessarySeqFocus false

namespace MutatingWebhook

/-! ## A computable strict total order on strings

Object keys of the canonical JSON form are sorted by this order
(byte-wise comparison of the character scalar values, the same relative
order `encoding/json` produces when it sorts map keys). -/

def charListLt : List Char → List Char → Bool
  | [], [] => false
  | [], _ :: _ => true
  | _ :: _, [] => false
  | a :: as, b :: bs =>
    if a.toNat < b.toNat then true
    else if a.toNat = b.toNat then charListLt as bs
    else false

def strLt (a b : String) : Bool := charListLt a.data b.data

/-! ## JSON document model

The canonical form of a parsed JSON document: object fields are an
association list whose keys are strictly increasing in `strLt` (the
canonical representative of an unordered Go map, and the order
`encoding/json` emits).  Two canonical documents are semantically equal
iff they are equal. -/

inductive Json where
  | null
  | bool (b : Bool)
  | num (n : Int)
  | str (s : String)
  | arr (elems : List Json)
  | obj (fields : List (String × Json))

/-- One component of a JSON-Pointer path: an object member name or an
array index. -/
inductive Step where
  | key (k : String)
  | idx (i : Nat)

/-- RFC 6902 patch operations, the subset `generateJsonPatch` emits. -/
inductive Op where
  | add (path : List Step) (value : Json)
  | remove (path : List Step)
  | replace (path : List Step) (value : Json)

def Op.path : Op → List Step
  | .add p _ => p
  | .remove p => p
  | .replace p _ => p

def Op.isRepl : Op → Prop
  | .replace _ _ => True
  | _ => False

/-- Prepend a path component to an operation (used when lifting the
operations for a subdocument to the enclosing document). -/
def consStep (s : Step) : Op → Op
  | .add p v => .add (s :: p) v
  | .remove p => .remove (s :: p)
  | .replace p v => .replace (s :: p) v

/-! ### Applying patch operations -/

/-- Look up an object member. -/
def lookupKey (k : String) : List (String × Json) → Option Json
  | [] => none
  | (k', v) :: fs => if k = k' then some v else lookupKey k fs

/-- Overwrite the value of an existing object member (first occurrence). -/
def setKey (k : String) (v : Json) : List (String × Json) → List (String × Json)
  | [] => []
  | (k', v') :: fs => if k = k' then (k', v) :: fs else (k', v') :: setKey k v fs

/-- Insert a member into a key-sorted association list, replacing the
value if the key is already present. -/
def insertKey (k : String) (v : Json) : List (String × Json) → List (String × Json)
  | [] => [(k, v)]
  | (k', v') :: fs =>
    if strLt k k' then (k, v) :: (k', v') :: fs
    else if k = k' then (k', v) :: fs
    else (k', v') :: insertKey k v fs

/-- Remove an object member; `none` when the key is absent. -/
def removeKey (k : String) : List (String × Json) → Option (List (String × Json))
  | [] => none
  | (k', v') :: fs =>
    if k = k' then some fs
    else (removeKey k fs).map fun r => (k', v') :: r

/-- RFC 6902 `add`: insert/overwrite an object member, insert an array
element (shifting the rest), or replace the whole document at the root. -/
def addAt : Json → List Step → Json → Option Json
  | _, [], v => some v
  | .obj fs, [.key k], v => some (.obj (insertKey k v fs))
  | .obj fs, .key k :: s :: p, v =>
    match lookupKey k fs with
    | none => none
    | some sub => (addAt sub (s :: p) v).map fun sub' => .obj (setKey k sub' fs)
  | .arr xs, [.idx i], v =>
    if i ≤ xs.length then some (.arr (xs.insertIdx i v)) else none
  | .arr xs, .idx i :: s :: p, v =>
    match xs[i]? with
    | none => none
    | some sub => (addAt sub (s :: p) v).map fun sub' => .arr (xs.set i sub')
  | _, _, _ => none

/-- RFC 6902 `remove`: delete an object member or array element; invalid
at the root. -/
def removeAt : Json → List Step → Option Json
  | _, [] => none
  | .obj fs, [.key k] => (removeKey k fs).map .obj
  | .obj fs, .key k :: s :: p =>
    match lookupKey k fs with
    | none => none
    | some sub => (removeAt sub (s :: p)).map fun sub' => .obj (setKey k sub' fs)
  | .arr xs, [.idx i] =>
    if i < xs.length then some (.arr (xs.eraseIdx i)) else none
  | .arr xs, .idx i :: s :: p =>
    match xs[i]? with
    | none => none
    | some sub => (removeAt sub (s :: p)).map fun sub' => .arr (xs.set i sub')
  | _, _ => none

/-- RFC 6902 `replace`: overwrite an existing value. -/
def replaceAt : Json → List Step → Json → Option Json
  | _, [], v => some v
  | .obj fs, .key k :: p, v =>
    match lookupKey k fs with
    | none => none
    | some sub => (replaceAt sub p v).map fun sub' => .obj (setKey k sub' fs)
  | .arr xs, .idx i :: p, v =>
    match xs[i]? with
    | none => none
    | some sub => (replaceAt sub p v).map fun sub' => .arr (xs.set i sub')
  | _, _, _ => none

def applyOp (d : Json) : Op → Option Json
  | .add p v => addAt d p v
  | .remove p => removeAt d p
  | .replace p v => replaceAt d p v

/-- Apply an ordered operation sequence, failing if any operation fails. -/
def applyOps : Json → List Op → Option Json
  | d, [] => some d
  | d, op :: ops =>
    match applyOp d op with
    | none => none
    | some d' => applyOps d' ops

/-! ### The diff (patch generation) algorithm

Modelled from the spec: `PatchGenerator.Diff` is the external
`gomodules.xyz/jsonpatch/v2` library (`CreatePatch`), whose source is not
part of this repository; the spec requires an ordered sequence of RFC 6902
operations at JSON-Pointer paths whose application to `origin` reproduces
`target` (round-trip law), with recursive descent into objects and arrays
and deterministic path targeting. -/

mutual

/-- Operations (root-relative paths) transforming `a` into `b`. -/
def diffVal : Json → Json → List Op
  | .obj as, .obj bs => diffObjs as bs
  | .arr as, .arr bs => diffArrs 0 as bs
  | .null, .null => []
  | .bool a, .bool b => if a = b then [] else [.replace [] (.bool b)]
  | .num a, .num b => if a = b then [] else [.replace [] (.num b)]
  | .str a, .str b => if a = b then [] else [.replace [] (.str b)]
  | _, b => [.replace [] b]
termination_by a b => sizeOf a + sizeOf b
decreasing_by all_goals simp_wf <;> omega

/-- Merge two key-sorted field lists: members only on the left are
removed, members only on the right are added, common members are diffed
recursively. -/
def diffObjs : List (String × Json) → List (String × Json) → List Op
  | [], [] => []
  | [], (k, v) :: bs => .add [.key k] v :: diffObjs [] bs
  | (k, _) :: as, [] => .remove [.key k] :: diffObjs as []
  | (ka, va) :: as, (kb, vb) :: bs =>
    if ka = kb then
      (diffVal va vb).map (consStep (.key ka)) ++ diffObjs as bs
    else if strLt ka kb then
      .remove [.key ka] :: diffObjs as ((kb, vb) :: bs)
    else
      .add [.key kb] vb :: diffObjs ((ka, va) :: as) bs
termination_by as bs => sizeOf as + sizeOf bs
decreasing_by all_goals simp_wf <;> omega

/-- Walk two arrays position by position from index `i`: surplus origin
elements are removed (each at the current position), surplus target
elements are appended, common positions are diffed recursively. -/
def diffArrs (i : Nat) : List Json → List Json → List Op
  | [], [] => []
  | [], b :: bs => .add [.idx i] b :: diffArrs (i + 1) [] bs
  | _ :: as, [] => .remove [.idx i] :: diffArrs i as []
  | a :: as, b :: bs =>
    (diffVal a b).map (consStep (.idx i)) ++ diffArrs (i + 1) as bs
termination_by as bs => sizeOf as + sizeOf bs
decreasing_by all_goals simp_wf <;> omega

end

/-! ### Canonical well-formedness: every object has strictly
`strLt`-sorted keys, recursively. -/

def sortedKeysB : List (String × Json) → Bool
  | [] => true
  | [_] => true
  | x :: y :: rest => strLt x.1 y.1 && sortedKeysB (y :: rest)

mutual

def wf : Json → Bool
  | .null => true
  | .bool _ => true
  | .num _ => true
  | .str _ => true
  | .arr xs => wfList xs
  | .obj fs => sortedKeysB fs && wfFields fs

def wfList : List Json → Bool
  | [] => true
  | x :: xs => wf x && wfList xs

def wfFields : List (String × Json) → Bool
  | [] => true
  | kv :: fs => wf kv.2 && wfFields fs

end

/-- The key list of an object's fields. -/
def keysOf (l : List (String × Json)) : List String := l.map Prod.fst

/-! ## SHA-256 (`crypto/sha256.Sum256`), over `Nat` modulo `2 ^ 32` -/

/-- Reduce to a 32-bit word. -/
def w32 (n : Nat) : Nat := n % 4294967296

/-- Rotate a 32-bit word right by `n` bits. -/
def rotr (n x : Nat) : Nat := w32 ((x >>> n) ||| (x <<< (32 - n)))

/-- Bitwise complement of a 32-bit word. -/
def compl32 (x : Nat) : Nat := x ^^^ 4294967295

def smallSigma0 (x : Nat) : Nat := (rotr 7 x) ^^^ (rotr 18 x) ^^^ (x >>> 3)

def smallSigma1 (x : Nat) : Nat := (rotr 17 x) ^^^ (rotr 19 x) ^^^ (x >>> 10)

def bigSigma0 (x : Nat) : Nat := (rotr 2 x) ^^^ (rotr 13 x) ^^^ (rotr 22 x)

def bigSigma1 (x : Nat) : Nat := (rotr 6 x) ^^^ (rotr 11 x) ^^^ (rotr 25 x)

def chFn (x y z : Nat) : Nat := (x &&& y) ^^^ (compl32 x &&& z)

def majFn (x y z : Nat) : Nat := (x &&& y) ^^^ (x &&& z) ^^^ (y &&& z)

/-- The 64 SHA-256 round constants. -/
def sha256K : List Nat :=
  [1116352408, 1899447441, 3049323471, 3921009573, 961987163, 1508970993,
   2453635748, 2870763221, 3624381080, 310598401, 607225278, 1426881987,
   1925078388, 2162078206, 2614888103, 3248222580, 3835390401, 4022224774,
   264347078, 604807628, 770255983, 1249150122, 1555081692, 1996064986,
   2554220882, 2821834349, 2952996808, 3210313671, 3336571891, 3584528711,
   113926993, 338241895, 666307205, 773529912, 1294757372, 1396182291,
   1695183700, 1986661051, 2177026350, 2456956037, 2730485921, 2820302411,
   3259730800, 3345764771, 3516065817, 3600352804, 4094571909, 275423344,
   430227734, 506948616, 659060556, 883997877, 958139571, 1322822218,
   1537002063, 1747873779, 1955562222, 2024104815, 2227730452, 2361852424,
   2428436474, 2756734187, 3204031479, 3329325298]

/-- The working state (a..h) of the compression function. -/
structure Hash8 where
  a : Nat
  b : Nat
  c : Nat
  d : Nat
  e : Nat
  f : Nat
  g : Nat
  h : Nat

/-- SHA-256 initial hash value. -/
def initH : Hash8 :=
  ⟨1779033703, 3144134277, 1013904242, 2773480762, 1359893119, 2600822924, 528734635, 1541459225⟩

/-- UTF-8 encoding of one character (byte values as `Nat`). -/
def utf8EncodeChar (c : Char) : List Nat :=
  let n := c.toNat
  if n < 128 then [n]
  else if n < 2048 then [192 + n / 64, 128 + n % 64]
  else if n < 65536 then [224 + n / 4096, 128 + (n / 64) % 64, 128 + n % 64]
  else [240 + n / 262144, 128 + (n / 4096) % 64, 128 + (n / 64) % 64, 128 + n % 64]

/-- The UTF-8 bytes of a string (`[]byte(s)` in Go). -/
def utf8Bytes (s : String) : List Nat := s.data.flatMap utf8EncodeChar

/-- Big-endian 8-byte encoding of the 64-bit message length. -/
def beBytes8 (n : Nat) : List Nat :=
  [(n >>> 56) % 256, (n >>> 48) % 256, (n >>> 40) % 256, (n >>> 32) % 256,
   (n >>> 24) % 256, (n >>> 16) % 256, (n >>> 8) % 256, n % 256]

/-- FIPS 180-4 message padding: `0x80`, zeros to 56 mod 64, then the
bit length. -/
def padMessage (m : List Nat) : List Nat :=
  m ++ [128] ++ List.replicate ((64 - (m.length + 9) % 64) % 64) 0 ++ beBytes8 (8 * m.length)

/-- Big-endian packing of bytes into 32-bit words. -/
def toWords : List Nat → List Nat
  | b0 :: b1 :: b2 :: b3 :: rest => (((b0 * 256 + b1) * 256 + b2) * 256 + b3) :: toWords rest
  | _ => []

/-- Split a word list into 16-word blocks (`fuel` bounds the recursion
and is instantiated with the list length). -/
def chunk16 : Nat → List Nat → List (List Nat)
  | 0, _ => []
  | _, [] => []
  | fuel + 1, ws => ws.take 16 :: chunk16 fuel (ws.drop 16)

/-- Extend a 16-word block to the 64-word message schedule. -/
def extendSchedule : Nat → List Nat → List Nat
  | 0, w => w
  | fuel + 1, w =>
    let n := w.length
    let nw := w32 (smallSigma1 (w.getD (n - 2) 0) + w.getD (n - 7) 0 +
      smallSigma0 (w.getD (n - 15) 0) + w.getD (n - 16) 0)
    extendSchedule fuel (w ++ [nw])

/-- One round of the compression function. -/
def roundStep (st : Hash8) (kw : Nat × Nat) : Hash8 :=
  let t1 := w32 (st.h + bigSigma1 st.e + chFn st.e st.f st.g + kw.1 + kw.2)
  let t2 := w32 (bigSigma0 st.a + majFn st.a st.b st.c)
  { a := w32 (t1 + t2), b := st.a, c := st.b, d := st.c,
    e := w32 (st.d + t1), f := st.e, g := st.f, h := st.g }

/-- Compress one 512-bit block into the running hash state. -/
def compressBlock (st : Hash8) (block : List Nat) : Hash8 :=
  let sched := extendSchedule 48 block
  let fin := (sha256K.zip sched).foldl roundStep st
  { a := w32 (st.a + fin.a), b := w32 (st.b + fin.b), c := w32 (st.c + fin.c),
    d := w32 (st.d + fin.d), e := w32 (st.e + fin.e), f := w32 (st.f + fin.f),
    g := w32 (st.g + fin.g), h := w32 (st.h + fin.h) }

/-- SHA-256 digest of a byte sequence, as eight 32-bit words. -/
def sha256Words (msg : List Nat) : List Nat :=
  let ws := toWords (padMessage msg)
  let st := (chunk16 ws.length ws).foldl compressBlock initH
  [st.a, st.b, st.c, st.d, st.e, st.f, st.g, st.h]

def hexDigitChar (n : Nat) : Char := if n < 10 then Char.ofNat (48 + n) else Char.ofNat (87 + n)

def byteToHex (b : Nat) : List Char := [hexDigitChar (b / 16), hexDigitChar (b % 16)]

def wordBytes (wd : Nat) : List Nat := [(wd >>> 24) % 256, (wd >>> 16) % 256, (wd >>> 8) % 256, wd % 256]

/-- `fmt.Sprintf("%x", sha256.Sum256([]byte(s)))`: the lowercase hex
encoding (64 characters) of the SHA-256 digest of the UTF-8 bytes of `s`. -/
def sha256hex (s : String) : String :=
  String.mk (((sha256Words (utf8Bytes s)).flatMap wordBytes).flatMap byteToHex)

/-- `getPodAffinityValue` from the source: prefix plus the first ten hex
characters of the digest. -/
def getPodAffinityValue (pipelineRunName : String) : String :=
  let hashString := sha256hex pipelineRunName
  "custom-pod-affinity" ++ "-" ++ hashString.take 10

/-! ## The Kubernetes object model (the fields the webhook reads/writes)

`map[string]string` values are modelled in canonical key-sorted form
(`none` is Go's nil map).  The `Pod` model carries exactly the fields the
webhook can read or mutate (metadata labels, metadata annotations,
`spec.affinity` with required pod-affinity terms); all other pod fields
are untouched by `Admit` and contribute no patch operations. -/

def lookupS (k : String) : List (String × String) → Option String
  | [] => none
  | (k', v) :: m => if k = k' then some v else lookupS k m

/-- Go map assignment `m[k] = v` on the canonical sorted form. -/
def insertS (k v : String) : List (String × String) → List (String × String)
  | [] => [(k, v)]
  | (k', v') :: m =>
    if strLt k k' then (k, v) :: (k', v') :: m
    else if k = k' then (k', v) :: m
    else (k', v') :: insertS k v m

structure LabelSelectorRequirement where
  key : String
  op : String
  values : List String
deriving DecidableEq

structure KLabelSelector where
  matchLabels : List (String × String)
  matchExpressions : List LabelSelectorRequirement
deriving DecidableEq

structure PodAffinityTerm where
  labelSelector : Option KLabelSelector
  topologyKey : String
deriving DecidableEq

structure PodAffinitySpec where
  requiredDuringSchedulingIgnoredDuringExecution : List PodAffinityTerm
deriving DecidableEq

structure Affinity where
  podAffinity : Option PodAffinitySpec
deriving DecidableEq

structure Pod where
  labels : Option (List (String × String))
  annotations : Option (List (String × String))
  affinity : Option Affinity
deriving DecidableEq

def pipelineRunLabelKey : String := "tekton.dev/pipelineRun"

/-- `workspace.AnnotationAffinityAssistantName`. -/
def affinityAssistantAnnotationKey : String := "pipeline.tekton.dev/affinity-assistant"

/-- `workspace.LabelInstance`. -/
def labelInstanceKey : String := "app.kubernetes.io/instance"

def hostnameTopologyKey : String := "kubernetes.io/hostname"

/-- `podAffinityTermUsingAffinityAssistant` from the source. -/
def podAffinityTermUsingAffinityAssistant (affinityAssistantName : String) : PodAffinityTerm :=
  { labelSelector :=
      some { matchLabels := [(labelInstanceKey, affinityAssistantName)], matchExpressions := [] },
    topologyKey := hostnameTopologyKey }

/-- `mergeAffinityWithAffinityAssistant` from the source: create the
pod-affinity section when absent and append the new required term. -/
def mergeAffinityWithAffinityAssistant (affinity : Affinity) (podAffinityName : String) : Affinity :=
  let podAffinityTerm := podAffinityTermUsingAffinityAssistant podAffinityName
  let pa := affinity.podAffinity.getD { requiredDuringSchedulingIgnoredDuringExecution := [] }
  { affinity with podAffinity := some { pa with
      requiredDuringSchedulingIgnoredDuringExecution :=
        pa.requiredDuringSchedulingIgnoredDuringExecution ++ [podAffinityTerm] } }

/-- `mutatePodAffinity` from the source: a no-op when the
affinity-assistant marker annotation is present, otherwise merge a
derived required co-location term into the (possibly freshly created)
affinity. -/
def mutatePodAffinity (p : Pod) (pipelineRunName : String) : Pod :=
  match lookupS affinityAssistantAnnotationKey (p.annotations.getD []) with
  | some _ => p
  | none =>
    let af := p.affinity.getD { podAffinity := none }
    { p with affinity := some (mergeAffinityWithAffinityAssistant af (getPodAffinityValue pipelineRunName)) }

/-! ### JSON serialization of the pod (what `json.NewEncoder(..).Encode`
produces for the modelled fields, in canonical key-sorted form; fields
with `omitempty` semantics are omitted when nil/empty). -/

def mapToJson (m : List (String × String)) : Json := .obj (m.map fun kv => (kv.1, .str kv.2))

def lsrToJson (r : LabelSelectorRequirement) : Json :=
  .obj ([("key", .str r.key), ("operator", .str r.op)] ++
    (if r.values = [] then [] else [("values", .arr (r.values.map .str))]))

def selectorToJson (sel : KLabelSelector) : Json :=
  .obj ((if sel.matchExpressions = [] then []
      else [("matchExpressions", .arr (sel.matchExpressions.map lsrToJson))]) ++
    (if sel.matchLabels = [] then [] else [("matchLabels", mapToJson sel.matchLabels)]))

def termToJson (t : PodAffinityTerm) : Json :=
  .obj ((match t.labelSelector with
      | none => []
      | some sel => [("labelSelector", selectorToJson sel)]) ++
    [("topologyKey", .str t.topologyKey)])

def podAffinityToJson (pa : PodAffinitySpec) : Json :=
  .obj (if pa.requiredDuringSchedulingIgnoredDuringExecution = [] then []
    else [("requiredDuringSchedulingIgnoredDuringExecution",
      .arr (pa.requiredDuringSchedulingIgnoredDuringExecution.map termToJson))])

def affinityToJson (af : Affinity) : Json :=
  .obj (match af.podAffinity with
    | none => []
    | some pa => [("podAffinity", podAffinityToJson pa)])

def podToJson (p : Pod) : Json :=
  .obj [("metadata", .obj
      ((match p.annotations with
        | none => []
        | some anns => [("annotations", mapToJson anns)]) ++
       (match p.labels with
        | none => []
        | some ls => [("labels", mapToJson ls)]))),
    ("spec", .obj (match p.affinity with
      | none => []
      | some af => [("affinity", affinityToJson af)]))]

/-- `generateJsonPatch` from the source: serialize both pods and produce
the operation list transforming the origin document into the target
document. -/
def generateJsonPatch (origin target : Pod) : List Op :=
  diffVal (podToJson origin) (podToJson target)

/-! ### The admission path -/

structure AdmissionRequest where
  /-- The result of decoding `request.Object.Raw` as a v1 Pod: `some pod`
  on success, `none` when decoding fails (the Go code ignores the decode
  error, leaving the zero-valued Pod in place). -/
  object : Option Pod

inductive PatchType where
  | jsonPatch
deriving DecidableEq

structure AdmissionResponse where
  patch : List Op
  allowed : Bool
  patchType : Option PatchType

/-- The zero value of `corev1.Pod` (restricted to the modelled fields):
nil maps and nil affinity. -/
def emptyPod : Pod := { labels := none, annotations := none, affinity := none }

def quanTestLabelKey : String := "QuanTest"

/-- The pod as mutated by `Admit`: the conditional affinity mutation for
pods owned by a PipelineRun, followed by the unconditional
`QuanTest=hello1` label write. -/
def admitTarget (pod : Pod) : Pod :=
  let pod1 := match lookupS pipelineRunLabelKey (pod.labels.getD []) with
    | some pr => mutatePodAffinity pod pr
    | none => pod
  { pod1 with labels := some (insertS quanTestLabelKey "hello1" (pod1.labels.getD [])) }

/-- `Admit` from the source: decode (errors ignored), snapshot the
origin, mutate, diff, and answer allow with a JSON patch. -/
def Admit (request : AdmissionRequest) : AdmissionResponse :=
  let pod := request.object.getD emptyPod
  { patch := generateJsonPatch pod (admitTarget pod),
    allowed := true,
    patchType := some .jsonPatch }

/-! ## The reconciliation path

`Reconcile` / `reconcileMutatingWebhook` as a pure function of an
explicit environment (leadership flag, the observed secret, the observed
`MutatingWebhookConfiguration`, the namespace object, and whether the
update call would fail), returning the outcome together with explicit
effect accounting (store reads and issued writes). -/

structure RuleWithOperations where
  operations : List String
  apiGroups : List String
  apiVersions : List String
  resources : List String
deriving DecidableEq

structure ServiceReference where
  namespaceName : String
  name : String
  path : Option String
deriving DecidableEq

structure WebhookClientConfig where
  service : Option ServiceReference
  caBundle : List Nat
deriving DecidableEq

inductive ReinvocationPolicyValue where
  | neverReinvoke
  | ifNeeded
deriving DecidableEq

structure Webhook where
  name : String
  clientConfig : WebhookClientConfig
  rules : List RuleWithOperations
  namespaceSelector : Option KLabelSelector
  reinvocationPolicy : Option ReinvocationPolicyValue
deriving DecidableEq

structure OwnerReference where
  apiVersion : String
  kind : String
  name : String
  uid : String
  controller : Bool
  blockOwnerDeletion : Bool
deriving DecidableEq

structure MutatingWebhookConfiguration where
  name : String
  ownerReferences : List OwnerReference
  webhooks : List Webhook
deriving DecidableEq

structure NamespaceObj where
  name : String
  uid : String
deriving DecidableEq

/-- `metav1.NewControllerRef(ns, Namespace)`. -/
def ownerRefOfNs (ns : NamespaceObj) : OwnerReference :=
  { apiVersion := "v1", kind := "Namespace", name := ns.name, uid := ns.uid,
    controller := true, blockOwnerDeletion := true }

/-- Reconcile errors (the classification of the `error` returns). -/
inductive RErr where
  | secretMissing
  | missingCACert (secretName : String)
  | webhookGetErr
  | nsGetErr
  | missingService (name : String)
  | updateFailed
deriving DecidableEq

/-- The reconcile outcome: success, the distinguished skip signal
(`controller.NewSkipKey`), or a failure. -/
inductive Outcome where
  | ok
  | skipped (key : String)
  | failed (e : RErr)
deriving DecidableEq

/-- Store reads and issued writes of one reconcile pass. -/
structure Effects where
  secretReads : Nat
  mwhReads : Nat
  nsReads : Nat
  writes : List MutatingWebhookConfiguration
deriving DecidableEq

structure ReconcilerEnv where
  isLeader : Bool
  secret : Option (List (String × List Nat))
  mwh : Option MutatingWebhookConfiguration
  ns : Option NamespaceObj
  updateFails : Bool
  path : String
  secretName : String
deriving DecidableEq

/-- `certresources.CACert`. -/
def caCertKey : String := "ca-cert.pem"

def lookupB (k : String) : List (String × List Nat) → Option (List Nat)
  | [] => none
  | (k', v) :: m => if k = k' then some v else lookupB k m

/-- The static rule set: creation of v1 pods. -/
def theRules : List RuleWithOperations :=
  [{ operations := ["CREATE"], apiGroups := [""], apiVersions := ["v1"], resources := ["pods"] }]

def excludeExpr : LabelSelectorRequirement :=
  { key := "webhooks.knative.dev/exclude", op := "DoesNotExist", values := [] }

def excludeSelector : KLabelSelector := { matchLabels := [], matchExpressions := [excludeExpr] }

/-- Modelled from the spec: `webhook.EnsureLabelSelectorExpressions` (a
knative.dev/pkg helper whose source is not part of this repository) — an
additive, idempotent merge of the wanted match expressions into the
observed selector: an expression is appended only when not already
present (set-membership check before append, spec sections 4.1 and 9). -/
def ensureLabelSelectorExpressions (current : Option KLabelSelector) (want : KLabelSelector) :
    Option KLabelSelector :=
  match current with
  | none => some want
  | some cur =>
    some { cur with matchExpressions := cur.matchExpressions ++
            want.matchExpressions.filter (fun e => decide (e ∉ cur.matchExpressions)) }

/-- The per-entry body of the `for i, wh := range current.Webhooks` loop:
entries whose name differs from the configuration name are untouched;
matching entries get the static rules, the merged namespace selector, the
CA bundle, the callback path (failing when there is no service target),
and the `IfNeeded` reinvocation policy. -/
def updateWebhook (name : String) (caCert : List Nat) (path : String) (wh : Webhook) :
    Except RErr Webhook :=
  if wh.name ≠ name then .ok wh
  else
    match wh.clientConfig.service with
    | none => .error (.missingService wh.name)
    | some svc => .ok { wh with
        rules := theRules,
        namespaceSelector := ensureLabelSelectorExpressions wh.namespaceSelector excludeSelector,
        clientConfig := { service := some { svc with path := some path }, caBundle := caCert },
        reinvocationPolicy := some .ifNeeded }

def updateWebhooks (name : String) (caCert : List Nat) (path : String) :
    List Webhook → Except RErr (List Webhook)
  | [] => .ok []
  | wh :: rest =>
    match updateWebhook name caCert path wh with
    | .error e => .error e
    | .ok wh' =>
      match updateWebhooks name caCert path rest with
      | .error e => .error e
      | .ok rest' => .ok (wh' :: rest')

/-- `reconcileMutatingWebhook` from the source: fetch the configuration
and the namespace, build the desired document, and issue a full update
only when the desired document differs from the observed one
(`kmp.SafeEqual`). -/
def reconcileMutatingWebhook (env : ReconcilerEnv) (caCert : List Nat) : Outcome × Effects :=
  match env.mwh with
  | none => (.failed .webhookGetErr, ⟨1, 1, 0, []⟩)
  | some configuredWebhook =>
    match env.ns with
    | none => (.failed .nsGetErr, ⟨1, 1, 1, []⟩)
    | some ns =>
      let current0 := { configuredWebhook with ownerReferences := [ownerRefOfNs ns] }
      match updateWebhooks configuredWebhook.name caCert env.path current0.webhooks with
      | .error e => (.failed e, ⟨1, 1, 1, []⟩)
      | .ok whs =>
        let current := { current0 with webhooks := whs }
        if configuredWebhook = current then (.ok, ⟨1, 1, 1, []⟩)
        else if env.updateFails then (.failed .updateFailed, ⟨1, 1, 1, [current]⟩)
        else (.ok, ⟨1, 1, 1, [current]⟩)

/-- `Reconcile` from the source: leadership gate, secret and CA-cert
fetch, then webhook reconciliation. -/
def Reconcile (env : ReconcilerEnv) (key : String) : Outcome × Effects :=
  if env.isLeader then
    match env.secret with
    | none => (.failed .secretMissing, ⟨1, 0, 0, []⟩)
    | some data =>
      match lookupB caCertKey data with
      | none => (.failed (.missingCACert env.secretName), ⟨1, 0, 0, []⟩)
      | some caCert => reconcileMutatingWebhook env caCert
  else
    (.skipped key, ⟨0, 0, 0, []⟩)

/-- The store state after the issued writes land (only successful passes
commit; an update that fails leaves the store unchanged, and such passes
are excluded by an `Outcome.ok` hypothesis wherever this is used). -/
def commitWrites (env : ReconcilerEnv) (eff : Effects) : ReconcilerEnv :=
  match eff.writes with
  | [] => env
  | w :: _ => { env with mwh := some w }

/-! ### Concrete sample data (used by the witness theorems) -/

def sampleService : ServiceReference := { namespaceName := "ns", name := "svc", path := none }

def sampleWebhookOk : Webhook :=
  { name := "wh", clientConfig := { service := some sampleService, caBundle := [] },
    rules := [], namespaceSelector := none, reinvocationPolicy := none }

def sampleWebhookNoSvc : Webhook :=
  { name := "wh", clientConfig := { service := none, caBundle := [] },
    rules := [], namespaceSelector := none, reinvocationPolicy := none }

def sampleEnv (w : Webhook) : ReconcilerEnv :=
  { isLeader := true, secret := some [(caCertKey, [7])],
    mwh := some { name := "wh", ownerReferences := [], webhooks := [w] },
    ns := some { name := "ns", uid := "u" }, updateFails := false, path := "/p",
    secretName := "s" }

/-- A marker-annotated pod without labels. -/
def samplePodMarked : Pod where
  labels := none
  annotations := some [("pipeline.tekton.dev/affinity-assistant", "aa-0")]
  affinity := none

/-- A PipelineRun-owned pod with no scheduling constraints. -/
def samplePodRun : Pod where
  labels := some [("tekton.dev/pipelineRun", "wf-1")]
  annotations := none
  affinity := none

/-- A PipelineRun-owned pod that already carries one required
co-location rule. -/
def samplePodWithAffinity : Pod where
  labels := some [("tekton.dev/pipelineRun", "wf-1")]
  annotations := none
  affinity := some ⟨some ⟨[⟨none, "zone"⟩]⟩⟩

/-! # Theorems -/

theorem Char.toNat_injective {a b : Char} (h : a.toNat = b.toNat) : a = b := by
  have := congrArg Char.ofNat h
  simpa [Char.ofNat_toNat] using this

theorem charListLt_irrefl : ∀ l, charListLt l l = false := by
  intro l
  induction l with
  | nil => rfl
  | cons a as ih => simp [charListLt, ih]

theorem charListLt_cons_iff {a b : Char} {as bs : List Char} :
    charListLt (a :: as) (b :: bs) = true ↔
      a.toNat < b.toNat ∨ (a.toNat = b.toNat ∧ charListLt as bs = true) := by
  by_cases h : a.toNat < b.toNat
  · simp [charListLt, h]
  · by_cases h2 : a.toNat = b.toNat
    · simp [charListLt, h, h2]
    · simp [charListLt, h, h2]

theorem charListLt_trans :
    ∀ {l₁ l₂ l₃}, charListLt l₁ l₂ = true → charListLt l₂ l₃ = true →
      charListLt l₁ l₃ = true := by
  intro l₁
  induction l₁ with
  | nil =>
    intro l₂ l₃ h12 h23
    cases l₂ with
    | nil => simp [charListLt] at h12
    | cons b bs =>
      cases l₃ with
      | nil => simp [charListLt] at h23
      | cons c cs => simp [charListLt]
  | cons a as ih =>
    intro l₂ l₃ h12 h23
    cases l₂ with
    | nil => simp [charListLt] at h12
    | cons b bs =>
      cases l₃ with
      | nil => simp [charListLt] at h23
      | cons c cs =>
        rw [charListLt_cons_iff] at h12 h23 ⊢
        rcases h12 with h12 | ⟨h12e, h12r⟩
        · rcases h23 with h23 | ⟨h23e, _⟩
          · exact Or.inl (by omega)
          · exact Or.inl (by omega)
        · rcases h23 with h23 | ⟨h23e, h23r⟩
          · exact Or.inl (by omega)
          · exact Or.inr ⟨by omega, ih h12r h23r⟩

theorem charListLt_conn :
    ∀ {l₁ l₂}, charListLt l₁ l₂ = false → charListLt l₂ l₁ = false → l₁ = l₂ := by
  intro l₁
  induction l₁ with
  | nil =>
    intro l₂ h12 _
    cases l₂ with
    | nil => rfl
    | cons b bs => simp [charListLt] at h12
  | cons a as ih =>
    intro l₂ h12 h21
    cases l₂ with
    | nil => simp [charListLt] at h21
    | cons b bs =>
      have h12' : ¬ (a.toNat < b.toNat ∨ (a.toNat = b.toNat ∧ charListLt as bs = true)) := by
        rw [← charListLt_cons_iff]
        simp [h12]
      have h21' : ¬ (b.toNat < a.toNat ∨ (b.toNat = a.toNat ∧ charListLt bs as = true)) := by
        rw [← charListLt_cons_iff]
        simp [h21]
      push_neg at h12' h21'
      have hab : a.toNat = b.toNat := by omega
      have he : a = b := Char.toNat_injective hab
      subst he
      have hr : charListLt as bs = false := by
        cases hv : charListLt as bs
        · rfl
        · exact absurd hv (by simpa using h12'.2 rfl)
      have hr' : charListLt bs as = false := by
        cases hv : charListLt bs as
        · rfl
        · exact absurd hv (by simpa using h21'.2 rfl)
      rw [ih hr hr']

theorem strLt_irrefl (a : String) : strLt a a = false :=
  charListLt_irrefl a.data

theorem strLt_trans {a b c : String} (h₁ : strLt a b = true) (h₂ : strLt b c = true) :
    strLt a c = true :=
  charListLt_trans h₁ h₂

theorem strLt_conn {a b : String} (h₁ : strLt a b = false) (h₂ : strLt b a = false) :
    a = b := by
  cases a; cases b
  exact congrArg String.mk (charListLt_conn h₁ h₂)

theorem strLt_ne {a b : String} (h : strLt a b = true) : a ≠ b := by
  intro he
  subst he
  rw [strLt_irrefl] at h
  exact absurd h (by simp)

theorem strLt_asymm {a b : String} (h : strLt a b = true) : strLt b a = false := by
  by_contra hc
  have hba : strLt b a = true := by
    cases hv : strLt b a
    · exact absurd hv hc
    · rfl
  have := strLt_trans h hba
  rw [strLt_irrefl] at this
  exact absurd this (by simp)

theorem strLt_total {a b : String} (hne : a ≠ b) :
    strLt a b = true ∨ strLt b a = true := by
  cases hab : strLt a b
  · cases hba : strLt b a
    · exact absurd (strLt_conn hab hba) hne
    · exact Or.inr rfl
  · exact Or.inl rfl

/-! ## Patch application: generic lemmas -/

theorem applyOps_append (d : Json) (xs ys : List Op) :
    applyOps d (xs ++ ys) =
      match applyOps d xs with
      | none => none
      | some d' => applyOps d' ys := by
  induction xs generalizing d with
  | nil => simp [applyOps]
  | cons op ops ih =>
    simp only [List.cons_append, applyOps]
    cases applyOp d op with
    | none => rfl
    | some d' => exact ih d'

theorem setKey_of_lookup {k : String} {v : Json} :
    ∀ {fs}, lookupKey k fs = some v → setKey k v fs = fs := by
  intro fs
  induction fs with
  | nil => intro h; simp [lookupKey] at h
  | cons kv fs ih =>
    obtain ⟨k', v'⟩ := kv
    intro h
    simp only [lookupKey] at h
    simp only [setKey]
    by_cases he : k = k'
    · rw [if_pos he] at h ⊢
      injection h with h
      subst h
      rfl
    · rw [if_neg he] at h ⊢
      rw [ih h]

theorem lookupKey_setKey {k : String} {v w : Json} :
    ∀ {fs}, lookupKey k fs = some w → lookupKey k (setKey k v fs) = some v := by
  intro fs
  induction fs with
  | nil => intro h; simp [lookupKey] at h
  | cons kv fs ih =>
    obtain ⟨k', v'⟩ := kv
    intro h
    simp only [lookupKey] at h
    simp only [setKey]
    by_cases he : k = k'
    · rw [if_pos he]
      simp [lookupKey, he]
    · rw [if_neg he] at h ⊢
      simp only [lookupKey, if_neg he]
      exact ih h

theorem setKey_setKey (k : String) (a b : Json) :
    ∀ fs, setKey k b (setKey k a fs) = setKey k b fs := by
  intro fs
  induction fs with
  | nil => rfl
  | cons kv fs ih =>
    obtain ⟨k', v'⟩ := kv
    simp only [setKey]
    by_cases he : k = k'
    · rw [if_pos he]
      simp [setKey, if_pos he]
    · rw [if_neg he]
      simp only [setKey, if_neg he]
      rw [ih]

theorem set_of_getElem? {α : Type} : ∀ {xs : List α} {i : Nat} {a : α},
    xs[i]? = some a → xs.set i a = xs := by
  intro xs
  induction xs with
  | nil => intro i a h; simp at h
  | cons x xs ih =>
    intro i a h
    cases i with
    | zero =>
      simp only [List.getElem?_cons_zero, Option.some.injEq] at h
      subst h
      rfl
    | succ n =>
      simp only [List.getElem?_cons_succ] at h
      simp [List.set, ih h]

theorem consStep_path (s : Step) (op : Op) : (consStep s op).path = s :: op.path := by
  cases op <;> rfl

/-! ### Framing: operations addressed strictly below an object member or
array element act on the subdocument. -/

theorem applyOp_consKey {k : String} {fs : List (String × Json)} {sub : Json}
    (hl : lookupKey k fs = some sub) (op : Op) (hp : op.path = [] → op.isRepl) :
    applyOp (.obj fs) (consStep (.key k) op) =
      (applyOp sub op).map fun s => .obj (setKey k s fs) := by
  cases op with
  | add p v =>
    cases p with
    | nil => exact absurd (hp rfl) (by simp [Op.isRepl])
    | cons s p' => simp only [consStep, applyOp, addAt, hl]
  | remove p =>
    cases p with
    | nil => exact absurd (hp rfl) (by simp [Op.isRepl])
    | cons s p' => simp only [consStep, applyOp, removeAt, hl]
  | replace p v => simp only [consStep, applyOp, replaceAt, hl]

theorem applyOp_consIdx {i : Nat} {xs : List Json} {sub : Json}
    (hl : xs[i]? = some sub) (op : Op) (hp : op.path = [] → op.isRepl) :
    applyOp (.arr xs) (consStep (.idx i) op) =
      (applyOp sub op).map fun s => .arr (xs.set i s) := by
  cases op with
  | add p v =>
    cases p with
    | nil => exact absurd (hp rfl) (by simp [Op.isRepl])
    | cons s p' => simp only [consStep, applyOp, addAt, hl]
  | remove p =>
    cases p with
    | nil => exact absurd (hp rfl) (by simp [Op.isRepl])
    | cons s p' => simp only [consStep, applyOp, removeAt, hl]
  | replace p v => simp only [consStep, applyOp, replaceAt, hl]

theorem applyOps_mapConsKey {k : String} :
    ∀ (ops : List Op) {fs : List (String × Json)} {sub : Json},
      lookupKey k fs = some sub →
      (∀ op ∈ ops, op.path = [] → op.isRepl) →
      applyOps (.obj fs) (ops.map (consStep (.key k))) =
        (applyOps sub ops).map fun s => .obj (setKey k s fs) := by
  intro ops
  induction ops with
  | nil =>
    intro fs sub hl _
    simp [applyOps, setKey_of_lookup hl]
  | cons op ops ih =>
    intro fs sub hl hp
    simp only [List.map_cons, applyOps]
    rw [applyOp_consKey hl op (hp op (List.mem_cons_self op ops))]
    cases hs : applyOp sub op with
    | none => simp
    | some s₁ =>
      simp only [Option.map_some']
      rw [ih (lookupKey_setKey hl) (fun o ho => hp o (List.mem_cons_of_mem op ho))]
      cases applyOps s₁ ops <;> simp [setKey_setKey]

theorem applyOps_mapConsIdx {i : Nat} :
    ∀ (ops : List Op) {xs : List Json} {sub : Json},
      xs[i]? = some sub →
      (∀ op ∈ ops, op.path = [] → op.isRepl) →
      applyOps (.arr xs) (ops.map (consStep (.idx i))) =
        (applyOps sub ops).map fun s => .arr (xs.set i s) := by
  intro ops
  induction ops with
  | nil =>
    intro xs sub hl _
    simp [applyOps, set_of_getElem? hl]
  | cons op ops ih =>
    intro xs sub hl hp
    have hi : i < xs.length := by
      rcases List.getElem?_eq_some.mp hl with ⟨h, _⟩
      exact h
    simp only [List.map_cons, applyOps]
    rw [applyOp_consIdx hl op (hp op (List.mem_cons_self op ops))]
    cases hs : applyOp sub op with
    | none => simp
    | some s₁ =>
      simp only [Option.map_some']
      have hl' : (xs.set i s₁)[i]? = some s₁ := by
        rw [List.getElem?_set_self (by simpa using hi)]
      rw [ih hl' (fun o ho => hp o (List.mem_cons_of_mem op ho))]
      cases applyOps s₁ ops <;> simp [List.set_set]

/-! ### Shape of the generated operation paths -/

theorem diffArrs_path_ne :
    ∀ (as : List Json) (i : Nat) (bs : List Json), ∀ op ∈ diffArrs i as bs, op.path ≠ [] := by
  intro as
  induction as with
  | nil =>
    intro i bs
    induction bs generalizing i with
    | nil => intro op hop; simp [diffArrs] at hop
    | cons b bs ih =>
      intro op hop
      simp only [diffArrs, List.mem_cons] at hop
      rcases hop with rfl | hop
      · simp [Op.path]
      · exact ih (i + 1) op hop
  | cons a as ih =>
    intro i bs
    cases bs with
    | nil =>
      intro op hop
      simp only [diffArrs, List.mem_cons] at hop
      rcases hop with rfl | hop
      · simp [Op.path]
      · exact ih i [] op hop
    | cons b bs =>
      intro op hop
      simp only [diffArrs, List.mem_append] at hop
      rcases hop with hop | hop
      · rcases List.mem_map.mp hop with ⟨o, _, rfl⟩
        simp [consStep_path]
      · exact ih (i + 1) bs op hop

theorem diffObjs_path_ne :
    ∀ (n : Nat) (as bs : List (String × Json)), as.length + bs.length ≤ n →
      ∀ op ∈ diffObjs as bs, op.path ≠ [] := by
  intro n
  induction n with
  | zero =>
    intro as bs hlen op hop
    cases as with
    | nil =>
      cases bs with
      | nil => simp [diffObjs] at hop
      | cons b bs => simp at hlen
    | cons a as => simp at hlen
  | succ n ih =>
    intro as bs hlen op hop
    cases as with
    | nil =>
      cases bs with
      | nil => simp [diffObjs] at hop
      | cons kv bs =>
        obtain ⟨k, v⟩ := kv
        simp only [diffObjs, List.mem_cons] at hop
        rcases hop with rfl | hop
        · simp [Op.path]
        · exact ih [] bs (by simp at hlen ⊢; omega) op hop
    | cons kva as =>
      obtain ⟨ka, va⟩ := kva
      cases bs with
      | nil =>
        simp only [diffObjs, List.mem_cons] at hop
        rcases hop with rfl | hop
        · simp [Op.path]
        · exact ih as [] (by simp at hlen ⊢; omega) op hop
      | cons kvb bs =>
        obtain ⟨kb, vb⟩ := kvb
        simp only [diffObjs] at hop
        by_cases he : ka = kb
        · rw [if_pos he] at hop
          rcases List.mem_append.mp hop with hop | hop
          · rcases List.mem_map.mp hop with ⟨o, _, rfl⟩
            simp [consStep_path]
          · exact ih as bs (by simp at hlen ⊢; omega) op hop
        · rw [if_neg he] at hop
          by_cases hlt : strLt ka kb = true
          · rw [if_pos hlt] at hop
            rcases List.mem_cons.mp hop with rfl | hop
            · simp [Op.path]
            · exact ih as ((kb, vb) :: bs) (by simp at hlen ⊢; omega) op hop
          · rw [if_neg hlt] at hop
            rcases List.mem_cons.mp hop with rfl | hop
            · simp [Op.path]
            · exact ih ((ka, va) :: as) bs (by simp at hlen ⊢; omega) op hop

theorem diffVal_path_empty :
    ∀ (a b : Json) (op : Op), op ∈ diffVal a b → op.path = [] → op.isRepl := by
  intro a b
  cases a <;> cases b <;> intro op hop hp <;> simp only [diffVal] at hop
  all_goals first
    | exact absurd hp (diffObjs_path_ne _ _ _ le_rfl op hop)
    | exact absurd hp (diffArrs_path_ne _ _ _ op hop)
    | (split at hop <;> simp_all [Op.isRepl])
    | simp_all [Op.isRepl]

/-! ### Sorted association lists -/

theorem sortedKeysB_iff :
    ∀ {l : List (String × Json)}, sortedKeysB l = true ↔
      (keysOf l).Pairwise (fun a b => strLt a b = true) := by
  intro l
  induction l with
  | nil => simp [sortedKeysB, keysOf]
  | cons x l ih =>
    cases l with
    | nil => simp [sortedKeysB, keysOf]
    | cons y rest =>
      rw [sortedKeysB]
      constructor
      · intro h
        have hsplit : strLt x.1 y.1 = true ∧ sortedKeysB (y :: rest) = true := by
          simpa using h
        have h1 := hsplit.1
        have h2 := ih.mp hsplit.2
        simp only [keysOf, List.map_cons] at h2 ⊢
        refine List.Pairwise.cons ?_ h2
        intro b hb
        rcases List.mem_cons.mp hb with rfl | hb
        · exact h1
        · exact strLt_trans h1 ((List.pairwise_cons.mp h2).1 b hb)
      · intro h
        simp only [keysOf, List.map_cons] at h
        have h' := List.pairwise_cons.mp h
        have hr : sortedKeysB (y :: rest) = true := ih.mpr (by simpa [keysOf] using h'.2)
        simp [h'.1 y.1 (by simp), hr]

theorem insertKey_middle {k : String} (v : Json) :
    ∀ (pre rest : List (String × Json)),
      (∀ x ∈ pre, strLt x.1 k = true) → (∀ y ∈ rest, strLt k y.1 = true) →
      insertKey k v (pre ++ rest) = pre ++ (k, v) :: rest := by
  intro pre
  induction pre with
  | nil =>
    intro rest _ hrest
    cases rest with
    | nil => rfl
    | cons y t =>
      obtain ⟨k', v'⟩ := y
      have hk : strLt k k' = true := hrest (k', v') (by simp)
      simp only [List.nil_append, insertKey]
      rw [if_pos hk]
  | cons x pre ih =>
    intro rest hpre hrest
    obtain ⟨k0, v0⟩ := x
    have h0 : strLt k0 k = true := hpre (k0, v0) (by simp)
    simp only [List.cons_append, insertKey, List.append_eq]
    rw [if_neg (by simp [strLt_asymm h0]), if_neg (Ne.symm (strLt_ne h0))]
    rw [ih rest (fun x hx => hpre x (by simp [hx])) hrest]

theorem lookupKey_append_of_ne {k : String} {v : Json} :
    ∀ (pre rest : List (String × Json)), (∀ x ∈ pre, x.1 ≠ k) →
      lookupKey k (pre ++ (k, v) :: rest) = some v := by
  intro pre
  induction pre with
  | nil => intro rest _; simp [lookupKey]
  | cons x pre ih =>
    intro rest hpre
    obtain ⟨k0, v0⟩ := x
    have h0 : k0 ≠ k := hpre (k0, v0) (by simp)
    simp only [List.cons_append, lookupKey, List.append_eq]
    rw [if_neg (Ne.symm h0)]
    exact ih rest (fun x hx => hpre x (by simp [hx]))

theorem setKey_append_of_ne {k : String} {v w : Json} :
    ∀ (pre rest : List (String × Json)), (∀ x ∈ pre, x.1 ≠ k) →
      setKey k w (pre ++ (k, v) :: rest) = pre ++ (k, w) :: rest := by
  intro pre
  induction pre with
  | nil => intro rest _; simp [setKey]
  | cons x pre ih =>
    intro rest hpre
    obtain ⟨k0, v0⟩ := x
    have h0 : k0 ≠ k := hpre (k0, v0) (by simp)
    simp only [List.cons_append, setKey, List.append_eq]
    rw [if_neg (Ne.symm h0)]
    rw [ih rest (fun x hx => hpre x (by simp [hx]))]

theorem removeKey_append_of_ne {k : String} {v : Json} :
    ∀ (pre rest : List (String × Json)), (∀ x ∈ pre, x.1 ≠ k) →
      removeKey k (pre ++ (k, v) :: rest) = some (pre ++ rest) := by
  intro pre
  induction pre with
  | nil => intro rest _; simp [removeKey]
  | cons x pre ih =>
    intro rest hpre
    obtain ⟨k0, v0⟩ := x
    have h0 : k0 ≠ k := hpre (k0, v0) (by simp)
    simp only [List.cons_append, removeKey, List.append_eq]
    rw [if_neg (Ne.symm h0)]
    rw [ih rest (fun x hx => hpre x (by simp [hx]))]
    rfl

/-! ### Positional list lemmas -/

theorem getElem?_append_cons {α : Type} :
    ∀ (pre : List α) (x : α) (rest : List α), (pre ++ x :: rest)[pre.length]? = some x := by
  intro pre
  induction pre with
  | nil => intro x rest; simp
  | cons p pre ih => intro x rest; simpa using ih x rest

theorem set_append_cons {α : Type} :
    ∀ (pre : List α) (x y : α) (rest : List α),
      (pre ++ x :: rest).set pre.length y = pre ++ y :: rest := by
  intro pre
  induction pre with
  | nil => intro x y rest; rfl
  | cons p pre ih => intro x y rest; simp [List.set, ih]

theorem eraseIdx_append_cons {α : Type} :
    ∀ (pre : List α) (x : α) (rest : List α),
      (pre ++ x :: rest).eraseIdx pre.length = pre ++ rest := by
  intro pre
  induction pre with
  | nil => intro x rest; rfl
  | cons p pre ih => intro x rest; simp [List.eraseIdx, ih]

/-! ### Correctness of the array diff -/

theorem diffArrs_correct :
    ∀ (as bs pre : List Json),
      (∀ a b, a ∈ as → b ∈ bs → applyOps a (diffVal a b) = some b) →
      applyOps (.arr (pre ++ as)) (diffArrs pre.length as bs) = some (.arr (pre ++ bs)) := by
  intro as
  induction as with
  | nil =>
    intro bs
    induction bs with
    | nil => intro pre _; simp [diffArrs, applyOps]
    | cons b bs ih =>
      intro pre _
      simp only [diffArrs, applyOps]
      have hadd : applyOp (.arr (pre ++ [])) (.add [.idx pre.length] b) =
          some (.arr (pre ++ [b])) := by
        simp only [applyOp, addAt, List.append_nil]
        rw [if_pos le_rfl, List.insertIdx_length_self]
      rw [hadd]
      show applyOps (Json.arr (pre ++ [b])) (diffArrs (pre.length + 1) [] bs) =
        some (Json.arr (pre ++ b :: bs))
      have hlen : pre.length + 1 = (pre ++ [b]).length := by simp
      rw [hlen]
      have hih := ih (pre ++ [b]) (by intro x y hx _; exact absurd hx (List.not_mem_nil x))
      rw [List.append_nil] at hih
      rw [hih]
      simp
  | cons a as ih =>
    intro bs pre hmem
    cases bs with
    | nil =>
      simp only [diffArrs, applyOps]
      have hrem : applyOp (.arr (pre ++ a :: as)) (.remove [.idx pre.length]) =
          some (.arr (pre ++ as)) := by
        simp only [applyOp, removeAt]
        rw [if_pos (by simp only [List.length_append, List.length_cons]; omega),
          eraseIdx_append_cons]
      rw [hrem]
      show applyOps (Json.arr (pre ++ as)) (diffArrs pre.length as []) =
        some (Json.arr (pre ++ []))
      exact ih [] pre (by intro x y _ hy; exact absurd hy (List.not_mem_nil y))
    | cons b bs =>
      simp only [diffArrs]
      rw [applyOps_append]
      have happly : applyOps (Json.arr (pre ++ a :: as))
          ((diffVal a b).map (consStep (.idx pre.length))) =
          some (Json.arr (pre ++ b :: as)) := by
        rw [applyOps_mapConsIdx (diffVal a b) (getElem?_append_cons pre a as)
          (diffVal_path_empty a b)]
        rw [hmem a b (List.mem_cons_self a as) (List.mem_cons_self b bs)]
        simp [set_append_cons]
      rw [happly]
      show applyOps (Json.arr (pre ++ b :: as)) (diffArrs (pre.length + 1) as bs) =
        some (Json.arr (pre ++ b :: bs))
      have hlen : pre.length + 1 = (pre ++ [b]).length := by simp
      have hsplit : pre ++ b :: as = (pre ++ [b]) ++ as := by simp
      rw [hlen, hsplit]
      rw [ih bs (pre ++ [b])
        (fun x y hx hy => hmem x y (List.mem_cons_of_mem a hx) (List.mem_cons_of_mem b hy))]
      simp

/-! ### Correctness of the object diff -/

theorem diffObjs_correct :
    ∀ (n : Nat) (as bs pre : List (String × Json)),
      as.length + bs.length ≤ n →
      (∀ va vb, (∃ k, (k, va) ∈ as) → (∃ k, (k, vb) ∈ bs) →
        applyOps va (diffVal va vb) = some vb) →
      (keysOf (pre ++ as)).Pairwise (fun a b => strLt a b = true) →
      (keysOf (pre ++ bs)).Pairwise (fun a b => strLt a b = true) →
      applyOps (.obj (pre ++ as)) (diffObjs as bs) = some (.obj (pre ++ bs)) := by
  intro n
  induction n with
  | zero =>
    intro as bs pre hlen _ _ _
    cases as with
    | cons a as => simp only [List.length_cons] at hlen; omega
    | nil =>
      cases bs with
      | cons b bs => simp only [List.length_cons] at hlen; omega
      | nil => simp [diffObjs, applyOps]
  | succ n ih =>
    intro as bs pre hlen hmem hsa hsb
    rw [keysOf, List.map_append] at hsa hsb
    cases as with
    | nil =>
      cases bs with
      | nil => simp [diffObjs, applyOps]
      | cons kvb bs =>
        obtain ⟨kb, vb⟩ := kvb
        simp only [List.map_cons] at hsb
        obtain ⟨hsb1, hsb2, hsb3⟩ := List.pairwise_append.mp hsb
        obtain ⟨hsbHd, hsbTl⟩ := List.pairwise_cons.mp hsb2
        have hpreLt : ∀ x ∈ pre, strLt x.1 kb = true := fun x hx =>
          hsb3 x.1 (List.mem_map_of_mem Prod.fst hx) kb (List.mem_cons_self kb _)
        have hins := insertKey_middle (k := kb) vb pre [] hpreLt
          (fun y hy => absurd hy (List.not_mem_nil y))
        have hadd : applyOp (.obj (pre ++ [])) (.add [.key kb] vb) =
            some (.obj (pre ++ [(kb, vb)])) := by
          simp only [applyOp, addAt]
          rw [hins]
        simp only [diffObjs, applyOps]
        rw [hadd]
        show applyOps (.obj (pre ++ [(kb, vb)])) (diffObjs [] bs) =
          some (.obj (pre ++ (kb, vb) :: bs))
        have e1 : pre ++ [(kb, vb)] = (pre ++ [(kb, vb)]) ++ [] := by simp
        have e2 : pre ++ (kb, vb) :: bs = (pre ++ [(kb, vb)]) ++ bs := by simp
        rw [e2]
        nth_rewrite 1 [e1]
        refine ih [] bs (pre ++ [(kb, vb)]) (by simp at hlen ⊢; omega) ?_ ?_ ?_
        · intro va vb' hx _
          obtain ⟨k, hk⟩ := hx
          exact absurd hk (List.not_mem_nil (k, va))
        · simp only [keysOf, List.map_append, List.map_cons, List.map_nil]
          refine List.pairwise_append.mpr ⟨List.pairwise_append.mpr ⟨hsb1, by simp, ?_⟩,
            by simp, by simp⟩
          intro a ha b hb
          have hbb : b = kb := by simpa using hb
          subst hbb
          exact hsb3 a ha b (List.mem_cons_self b _)
        · simp only [keysOf, List.map_append, List.map_cons, List.map_nil]
          refine List.pairwise_append.mpr ⟨List.pairwise_append.mpr ⟨hsb1, by simp, ?_⟩,
            hsbTl, ?_⟩
          · intro a ha b hb
            have hbb : b = kb := by simpa using hb
            subst hbb
            exact hsb3 a ha b (List.mem_cons_self b _)
          · intro a ha b hb
            rcases List.mem_append.mp ha with ha | ha
            · exact hsb3 a ha b (List.mem_cons_of_mem kb hb)
            · have haa : a = kb := by simpa using ha
              subst haa
              exact hsbHd b hb
    | cons kva as =>
      obtain ⟨ka, va⟩ := kva
      simp only [List.map_cons] at hsa
      obtain ⟨hsa1, hsa2, hsa3⟩ := List.pairwise_append.mp hsa
      obtain ⟨hsaHd, hsaTl⟩ := List.pairwise_cons.mp hsa2
      have hpreNeKa : ∀ x ∈ pre, x.1 ≠ ka := fun x hx =>
        strLt_ne (hsa3 x.1 (List.mem_map_of_mem Prod.fst hx) ka (List.mem_cons_self ka _))
      cases bs with
      | nil =>
        have hrem : applyOp (.obj (pre ++ (ka, va) :: as)) (.remove [.key ka]) =
            some (.obj (pre ++ as)) := by
          simp only [applyOp, removeAt]
          rw [removeKey_append_of_ne pre as hpreNeKa]
          rfl
        simp only [diffObjs, applyOps]
        rw [hrem]
        show applyOps (.obj (pre ++ as)) (diffObjs as []) = some (.obj (pre ++ []))
        refine ih as [] pre (by simp at hlen ⊢; omega) ?_ ?_ ?_
        · intro va' vb' _ hy
          obtain ⟨k, hk⟩ := hy
          exact absurd hk (List.not_mem_nil (k, vb'))
        · simp only [keysOf, List.map_append]
          refine List.pairwise_append.mpr ⟨hsa1, hsaTl, ?_⟩
          intro a ha b hb
          exact hsa3 a ha b (List.mem_cons_of_mem ka hb)
        · simp only [keysOf, List.map_append]
          exact hsb
      | cons kvb bs =>
        obtain ⟨kb, vb⟩ := kvb
        simp only [List.map_cons] at hsb
        obtain ⟨hsb1, hsb2, hsb3⟩ := List.pairwise_append.mp hsb
        obtain ⟨hsbHd, hsbTl⟩ := List.pairwise_cons.mp hsb2
        by_cases he : ka = kb
        · subst he
          have hlook : lookupKey ka (pre ++ (ka, va) :: as) = some va :=
            lookupKey_append_of_ne pre as hpreNeKa
          have happly : applyOps (.obj (pre ++ (ka, va) :: as))
              ((diffVal va vb).map (consStep (.key ka))) =
              some (.obj (pre ++ (ka, vb) :: as)) := by
            rw [applyOps_mapConsKey (diffVal va vb) hlook (diffVal_path_empty va vb)]
            rw [hmem va vb ⟨ka, List.mem_cons_self (ka, va) as⟩
              ⟨ka, List.mem_cons_self (ka, vb) bs⟩]
            simp [setKey_append_of_ne pre as hpreNeKa]
          simp only [diffObjs]
          rw [if_pos trivial]
          rw [applyOps_append, happly]
          show applyOps (.obj (pre ++ (ka, vb) :: as)) (diffObjs as bs) =
            some (.obj (pre ++ (ka, vb) :: bs))
          have e1 : pre ++ (ka, vb) :: as = (pre ++ [(ka, vb)]) ++ as := by simp
          have e2 : pre ++ (ka, vb) :: bs = (pre ++ [(ka, vb)]) ++ bs := by simp
          rw [e1, e2]
          refine ih as bs (pre ++ [(ka, vb)]) (by simp at hlen ⊢; omega) ?_ ?_ ?_
          · intro va' vb' hx hy
            obtain ⟨k, hk⟩ := hx
            obtain ⟨k2, hk2⟩ := hy
            exact hmem va' vb' ⟨k, List.mem_cons_of_mem _ hk⟩ ⟨k2, List.mem_cons_of_mem _ hk2⟩
          · simp only [keysOf, List.map_append, List.map_cons, List.map_nil]
            refine List.pairwise_append.mpr ⟨List.pairwise_append.mpr ⟨hsa1, by simp, ?_⟩,
              hsaTl, ?_⟩
            · intro a ha b hb
              have hbb : b = ka := by simpa using hb
              subst hbb
              exact hsa3 a ha b (List.mem_cons_self b _)
            · intro a ha b hb
              rcases List.mem_append.mp ha with ha | ha
              · exact hsa3 a ha b (List.mem_cons_of_mem ka hb)
              · have haa : a = ka := by simpa using ha
                subst haa
                exact hsaHd b hb
          · simp only [keysOf, List.map_append, List.map_cons, List.map_nil]
            refine List.pairwise_append.mpr ⟨List.pairwise_append.mpr ⟨hsb1, by simp, ?_⟩,
              hsbTl, ?_⟩
            · intro a ha b hb
              have hbb : b = ka := by simpa using hb
              subst hbb
              exact hsb3 a ha b (List.mem_cons_self b _)
            · intro a ha b hb
              rcases List.mem_append.mp ha with ha | ha
              · exact hsb3 a ha b (List.mem_cons_of_mem ka hb)
              · have haa : a = ka := by simpa using ha
                subst haa
                exact hsbHd b hb
        · by_cases hlt : strLt ka kb = true
          · have hrem : applyOp (.obj (pre ++ (ka, va) :: as)) (.remove [.key ka]) =
                some (.obj (pre ++ as)) := by
              simp only [applyOp, removeAt]
              rw [removeKey_append_of_ne pre as hpreNeKa]
              rfl
            simp only [diffObjs]
            rw [if_neg he, if_pos hlt]
            simp only [applyOps]
            rw [hrem]
            show applyOps (.obj (pre ++ as)) (diffObjs as ((kb, vb) :: bs)) =
              some (.obj (pre ++ (kb, vb) :: bs))
            refine ih as ((kb, vb) :: bs) pre (by simp at hlen ⊢; omega) ?_ ?_ ?_
            · intro va' vb' hx hy
              obtain ⟨k, hk⟩ := hx
              exact hmem va' vb' ⟨k, List.mem_cons_of_mem _ hk⟩ hy
            · simp only [keysOf, List.map_append]
              refine List.pairwise_append.mpr ⟨hsa1, hsaTl, ?_⟩
              intro a ha b hb
              exact hsa3 a ha b (List.mem_cons_of_mem ka hb)
            · simp only [keysOf, List.map_append, List.map_cons]
              exact List.pairwise_append.mpr ⟨hsb1, hsb2, hsb3⟩
          · have hba : strLt kb ka = true := (strLt_total he).resolve_left hlt
            have hpreLtKb : ∀ x ∈ pre, strLt x.1 kb = true := fun x hx =>
              hsb3 x.1 (List.mem_map_of_mem Prod.fst hx) kb (List.mem_cons_self kb _)
            have hrestGt : ∀ y ∈ (ka, va) :: as, strLt kb y.1 = true := by
              intro y hy
              rcases List.mem_cons.mp hy with rfl | hy
              · exact hba
              · exact strLt_trans hba (hsaHd y.1 (List.mem_map_of_mem Prod.fst hy))
            have hins := insertKey_middle (k := kb) vb pre ((ka, va) :: as) hpreLtKb hrestGt
            have hadd : applyOp (.obj (pre ++ (ka, va) :: as)) (.add [.key kb] vb) =
                some (.obj (pre ++ (kb, vb) :: (ka, va) :: as)) := by
              simp only [applyOp, addAt]
              rw [hins]
            simp only [diffObjs]
            rw [if_neg he, if_neg hlt]
            simp only [applyOps]
            rw [hadd]
            show applyOps (.obj (pre ++ (kb, vb) :: (ka, va) :: as))
                (diffObjs ((ka, va) :: as) bs) =
              some (.obj (pre ++ (kb, vb) :: bs))
            have e1 : pre ++ (kb, vb) :: (ka, va) :: as =
                (pre ++ [(kb, vb)]) ++ (ka, va) :: as := by simp
            have e2 : pre ++ (kb, vb) :: bs = (pre ++ [(kb, vb)]) ++ bs := by simp
            rw [e1, e2]
            refine ih ((ka, va) :: as) bs (pre ++ [(kb, vb)]) (by simp at hlen ⊢; omega)
              ?_ ?_ ?_
            · intro va' vb' hx hy
              obtain ⟨k2, hk2⟩ := hy
              exact hmem va' vb' hx ⟨k2, List.mem_cons_of_mem _ hk2⟩
            · simp only [keysOf, List.map_append, List.map_cons, List.map_nil]
              refine List.pairwise_append.mpr ⟨List.pairwise_append.mpr ⟨hsb1, by simp, ?_⟩,
                ?_, ?_⟩
              · intro a ha b hb
                have hbb : b = kb := by simpa using hb
                subst hbb
                exact hsb3 a ha b (List.mem_cons_self b _)
              · exact List.pairwise_cons.mpr ⟨hsaHd, hsaTl⟩
              · intro a ha b hb
                rcases List.mem_append.mp ha with ha | ha
                · rcases List.mem_cons.mp hb with rfl | hb
                  · exact hsa3 a ha b (List.mem_cons_self b _)
                  · exact hsa3 a ha b (List.mem_cons_of_mem ka hb)
                · have haa : a = kb := by simpa using ha
                  subst haa
                  rcases List.mem_cons.mp hb with rfl | hb
                  · exact hba
                  · exact strLt_trans hba (hsaHd b hb)
            · simp only [keysOf, List.map_append, List.map_cons, List.map_nil]
              refine List.pairwise_append.mpr ⟨List.pairwise_append.mpr ⟨hsb1, by simp, ?_⟩,
                hsbTl, ?_⟩
              · intro a ha b hb
                have hbb : b = kb := by simpa using hb
                subst hbb
                exact hsb3 a ha b (List.mem_cons_self b _)
              · intro a ha b hb
                rcases List.mem_append.mp ha with ha | ha
                · exact hsb3 a ha b (List.mem_cons_of_mem kb hb)
                · have haa : a = kb := by simpa using ha
                  subst haa
                  exact hsbHd b hb

/-! ### The round-trip law -/

theorem wfList_mem : ∀ {xs : List Json} {x : Json}, wfList xs = true → x ∈ xs → wf x = true := by
  intro xs
  induction xs with
  | nil => intro x _ hx; exact absurd hx (List.not_mem_nil x)
  | cons y ys ih =>
    intro x hwf hx
    have h : wf y = true ∧ wfList ys = true := by simpa [wfList] using hwf
    rcases List.mem_cons.mp hx with rfl | hx
    · exact h.1
    · exact ih h.2 hx

theorem wfFields_mem : ∀ {fs : List (String × Json)} {k : String} {v : Json},
    wfFields fs = true → (k, v) ∈ fs → wf v = true := by
  intro fs
  induction fs with
  | nil => intro k v _ hx; exact absurd hx (List.not_mem_nil (k, v))
  | cons kv fs ih =>
    intro k v hwf hx
    have h : wf kv.2 = true ∧ wfFields fs = true := by simpa [wfFields] using hwf
    rcases List.mem_cons.mp hx with rfl | hx
    · exact h.1
    · exact ih h.2 hx

theorem diffVal_roundtrip :
    ∀ (n : Nat) (a b : Json), sizeOf a + sizeOf b ≤ n → wf a = true → wf b = true →
      applyOps a (diffVal a b) = some b := by
  intro n
  induction n using Nat.strong_induction_on with
  | _ n IH =>
    intro a b hn hwa hwb
    cases a <;> cases b
    case obj.obj as bs =>
      have hwa' : sortedKeysB as = true ∧ wfFields as = true := by simpa [wf] using hwa
      have hwb' : sortedKeysB bs = true ∧ wfFields bs = true := by simpa [wf] using hwb
      have hmem : ∀ va vb, (∃ k, (k, va) ∈ as) → (∃ k, (k, vb) ∈ bs) →
          applyOps va (diffVal va vb) = some vb := by
        intro va vb hva hvb
        obtain ⟨k1, hk1⟩ := hva
        obtain ⟨k2, hk2⟩ := hvb
        have hs1 : sizeOf va < sizeOf (Json.obj as) := by
          have := List.sizeOf_lt_of_mem hk1
          simp only [Prod.mk.sizeOf_spec, Json.obj.sizeOf_spec] at this ⊢
          omega
        have hs2 : sizeOf vb < sizeOf (Json.obj bs) := by
          have := List.sizeOf_lt_of_mem hk2
          simp only [Prod.mk.sizeOf_spec, Json.obj.sizeOf_spec] at this ⊢
          omega
        exact IH (sizeOf va + sizeOf vb) (by omega) va vb le_rfl
          (wfFields_mem hwa'.2 hk1) (wfFields_mem hwb'.2 hk2)
      have hfin := diffObjs_correct (as.length + bs.length) as bs [] le_rfl hmem
        (by rw [List.nil_append]; exact sortedKeysB_iff.mp hwa'.1)
        (by rw [List.nil_append]; exact sortedKeysB_iff.mp hwb'.1)
      simp only [List.nil_append] at hfin
      simpa only [diffVal] using hfin
    case arr.arr xs ys =>
      have hwa' : wfList xs = true := by simpa [wf] using hwa
      have hwb' : wfList ys = true := by simpa [wf] using hwb
      have hmem : ∀ x y, x ∈ xs → y ∈ ys → applyOps x (diffVal x y) = some y := by
        intro x y hx hy
        have hs1 : sizeOf x < sizeOf (Json.arr xs) := by
          have := List.sizeOf_lt_of_mem hx
          simp only [Json.arr.sizeOf_spec]
          omega
        have hs2 : sizeOf y < sizeOf (Json.arr ys) := by
          have := List.sizeOf_lt_of_mem hy
          simp only [Json.arr.sizeOf_spec]
          omega
        exact IH (sizeOf x + sizeOf y) (by omega) x y le_rfl
          (wfList_mem hwa' hx) (wfList_mem hwb' hy)
      have hfin := diffArrs_correct xs ys [] hmem
      simp only [List.nil_append, List.length_nil] at hfin
      simpa only [diffVal] using hfin
    case null.null => simp [diffVal, applyOps]
    case bool.bool x y =>
      by_cases hxy : x = y
      · subst hxy; simp [diffVal, applyOps]
      · simp [diffVal, hxy, applyOps, applyOp, replaceAt]
    case num.num x y =>
      by_cases hxy : x = y
      · subst hxy; simp [diffVal, applyOps]
      · simp [diffVal, hxy, applyOps, applyOp, replaceAt]
    case str.str x y =>
      by_cases hxy : x = y
      · subst hxy; simp [diffVal, applyOps]
      · simp [diffVal, hxy, applyOps, applyOp, replaceAt]
    all_goals simp [diffVal, applyOps, applyOp, replaceAt]

/-- The round-trip law in its applied form (shared helper). -/
theorem applyOps_diffVal {a b : Json} (hwa : wf a = true) (hwb : wf b = true) :
    applyOps a (diffVal a b) = some b :=
  diffVal_roundtrip (sizeOf a + sizeOf b) a b le_rfl hwa hwb

/-! ### The diff of equal documents is empty -/

theorem diffVal_self :
    ∀ (n : Nat) (a : Json), sizeOf a ≤ n → diffVal a a = [] := by
  intro n
  induction n using Nat.strong_induction_on with
  | _ n IH =>
    intro a hn
    cases a with
    | null => simp [diffVal]
    | bool x => simp [diffVal]
    | num x => simp [diffVal]
    | str x => simp [diffVal]
    | obj fs =>
      have hobjs : ∀ (l : List (String × Json)),
          (∀ v, (∃ k, (k, v) ∈ l) → diffVal v v = []) → diffObjs l l = [] := by
        intro l
        induction l with
        | nil => intro _; simp [diffObjs]
        | cons kv rest ih =>
          intro hv
          obtain ⟨k, v⟩ := kv
          have h1 : diffVal v v = [] := hv v ⟨k, List.mem_cons_self (k, v) rest⟩
          have h2 : diffObjs rest rest = [] :=
            ih fun v' hv' => hv v' (hv'.imp fun k' hk' => List.mem_cons_of_mem _ hk')
          simp [diffObjs, h1, h2]
      have hval : ∀ v, (∃ k, (k, v) ∈ fs) → diffVal v v = [] := by
        intro v hv
        obtain ⟨k, hk⟩ := hv
        have hs : sizeOf v < sizeOf (Json.obj fs) := by
          have := List.sizeOf_lt_of_mem hk
          simp only [Prod.mk.sizeOf_spec, Json.obj.sizeOf_spec] at this ⊢
          omega
        exact IH (sizeOf v) (by omega) v le_rfl
      simpa only [diffVal] using hobjs fs hval
    | arr xs =>
      have harrs : ∀ (l : List Json) (i : Nat),
          (∀ v ∈ l, diffVal v v = []) → diffArrs i l l = [] := by
        intro l
        induction l with
        | nil => intro i _; simp [diffArrs]
        | cons x rest ih =>
          intro i hv
          have h1 : diffVal x x = [] := hv x (List.mem_cons_self x rest)
          have h2 : diffArrs (i + 1) rest rest = [] :=
            ih (i + 1) fun v' hv' => hv v' (List.mem_cons_of_mem _ hv')
          simp [diffArrs, h1, h2]
      have hval : ∀ v ∈ xs, diffVal v v = [] := by
        intro v hv
        have hs : sizeOf v < sizeOf (Json.arr xs) := by
          have := List.sizeOf_lt_of_mem hv
          simp only [Json.arr.sizeOf_spec]
          omega
        exact IH (sizeOf v) (by omega) v le_rfl
      simpa only [diffVal] using harrs xs 0 hval

theorem diffVal_self' (a : Json) : diffVal a a = [] :=
  diffVal_self (sizeOf a) a le_rfl

/-! ### String-map lemmas for the label bookkeeping -/

theorem lookupS_insertS (k v : String) : ∀ m, lookupS k (insertS k v m) = some v := by
  intro m
  induction m with
  | nil => simp [insertS, lookupS]
  | cons kv m ih =>
    obtain ⟨k', v'⟩ := kv
    simp only [insertS]
    by_cases hlt : strLt k k' = true
    · rw [if_pos hlt]
      simp [lookupS]
    · rw [if_neg hlt]
      by_cases he : k = k'
      · rw [if_pos he]
        simp [lookupS, he]
      · rw [if_neg he]
        simp only [lookupS, if_neg he]
        exact ih

theorem lookupS_insertS_ne {k k' : String} (v : String) (hne : k ≠ k') :
    ∀ m, lookupS k (insertS k' v m) = lookupS k m := by
  intro m
  induction m with
  | nil => simp [insertS, lookupS, hne]
  | cons kv m ih =>
    obtain ⟨k0, v0⟩ := kv
    simp only [insertS]
    by_cases hlt : strLt k' k0 = true
    · rw [if_pos hlt]
      simp [lookupS, hne]
    · rw [if_neg hlt]
      by_cases he : k' = k0
      · rw [if_pos he]
        subst he
        simp [lookupS, hne]
      · rw [if_neg he]
        simp only [lookupS]
        by_cases hk0 : k = k0
        · simp [hk0]
        · simp [hk0, ih]

/-- A vanished diff between two serialized string maps forces the maps to
be equal. -/
theorem diffVal_mapToJson_nil :
    ∀ (m m' : List (String × String)), diffVal (mapToJson m) (mapToJson m') = [] → m = m' := by
  intro m
  induction m with
  | nil =>
    intro m' h
    cases m' with
    | nil => rfl
    | cons kv t =>
      obtain ⟨k, v⟩ := kv
      simp [mapToJson, diffVal, diffObjs] at h
  | cons kv m ih =>
    intro m' h
    obtain ⟨k, v⟩ := kv
    cases m' with
    | nil => simp [mapToJson, diffVal, diffObjs] at h
    | cons kv' t =>
      obtain ⟨k', v'⟩ := kv'
      simp only [mapToJson, List.map_cons, diffVal, diffObjs] at h
      by_cases he : k = k'
      · rw [if_pos he] at h
        rcases List.append_eq_nil.mp h with ⟨h1, h2⟩
        have hv : v = v' := by simpa [diffVal] using List.map_eq_nil_iff.mp h1
        have ht : m = t := ih t (by simpa only [mapToJson, diffVal] using h2)
        rw [he, hv, ht]
      · rw [if_neg he] at h
        by_cases hlt : strLt k k' = true
        · rw [if_pos hlt] at h
          simp at h
        · rw [if_neg hlt] at h
          simp at h

/-! ### Projections of the admission mutation -/

theorem mutatePodAffinity_labels (p : Pod) (pr : String) :
    (mutatePodAffinity p pr).labels = p.labels := by
  simp only [mutatePodAffinity]
  cases lookupS affinityAssistantAnnotationKey (p.annotations.getD []) <;> rfl

theorem mutatePodAffinity_annotations (p : Pod) (pr : String) :
    (mutatePodAffinity p pr).annotations = p.annotations := by
  simp only [mutatePodAffinity]
  cases lookupS affinityAssistantAnnotationKey (p.annotations.getD []) <;> rfl

theorem admitTarget_labels (p : Pod) :
    (admitTarget p).labels =
      some (insertS quanTestLabelKey "hello1" (p.labels.getD [])) := by
  simp only [admitTarget]
  cases h : lookupS pipelineRunLabelKey (p.labels.getD []) with
  | none => rfl
  | some pr => simp [mutatePodAffinity_labels]

theorem admitTarget_annotations (p : Pod) :
    (admitTarget p).annotations = p.annotations := by
  simp only [admitTarget]
  cases h : lookupS pipelineRunLabelKey (p.labels.getD []) with
  | none => rfl
  | some pr => simp [mutatePodAffinity_annotations]

/-! ## Reconciler lemmas -/

theorem ensure_idem (cur : Option KLabelSelector) (want : KLabelSelector) :
    ensureLabelSelectorExpressions (ensureLabelSelectorExpressions cur want) want =
      ensureLabelSelectorExpressions cur want := by
  cases cur with
  | none =>
    simp only [ensureLabelSelectorExpressions]
    have hf : want.matchExpressions.filter
        (fun e => decide (e ∉ want.matchExpressions)) = [] := by
      apply List.filter_eq_nil_iff.mpr
      intro a ha
      simp [ha]
    rw [hf]
    simp
  | some cur =>
    simp only [ensureLabelSelectorExpressions]
    have hf : want.matchExpressions.filter (fun e => decide (e ∉
        (cur.matchExpressions ++ want.matchExpressions.filter
          (fun e => decide (e ∉ cur.matchExpressions))))) = [] := by
      apply List.filter_eq_nil_iff.mpr
      intro a ha
      simp only [decide_eq_true_eq, not_not]
      by_cases hm : a ∈ cur.matchExpressions
      · exact List.mem_append_left _ hm
      · refine List.mem_append_right _ ?_
        rw [List.mem_filter]
        exact ⟨ha, by simp [hm]⟩
    rw [hf]
    simp

theorem updateWebhook_idem {name : String} {ca : List Nat} {path : String} {wh wh' : Webhook}
    (h : updateWebhook name ca path wh = .ok wh') :
    updateWebhook name ca path wh' = .ok wh' := by
  simp only [updateWebhook] at h ⊢
  by_cases hn : wh.name ≠ name
  · rw [if_pos hn] at h
    injection h with h
    subst h
    rw [if_pos hn]
  · rw [if_neg hn] at h
    cases hsvc : wh.clientConfig.service with
    | none => simp [hsvc] at h
    | some svc =>
      simp only [hsvc] at h
      injection h with h
      subst h
      rw [if_neg (by simpa using hn)]
      simp [ensure_idem]

theorem updateWebhooks_idem {name : String} {ca : List Nat} {path : String} :
    ∀ {l l' : List Webhook}, updateWebhooks name ca path l = .ok l' →
      updateWebhooks name ca path l' = .ok l' := by
  intro l
  induction l with
  | nil =>
    intro l' h
    simp only [updateWebhooks] at h
    injection h with h
    subst h
    rfl
  | cons wh rest ih =>
    intro l' h
    simp only [updateWebhooks] at h
    cases h1 : updateWebhook name ca path wh with
    | error e => rw [h1] at h; cases h
    | ok wh1 =>
      rw [h1] at h
      cases h2 : updateWebhooks name ca path rest with
      | error e => rw [h2] at h; cases h
      | ok rest1 =>
        rw [h2] at h
        injection h with h
        subst h
        simp only [updateWebhooks]
        rw [updateWebhook_idem h1, ih h2]

theorem updateWebhooks_missing {name : String} (ca : List Nat) (path : String) :
    ∀ {l : List Webhook}, (∃ wh ∈ l, wh.name = name ∧ wh.clientConfig.service = none) →
      updateWebhooks name ca path l = .error (.missingService name) := by
  intro l
  induction l with
  | nil =>
    intro h
    obtain ⟨wh, hmem, _⟩ := h
    exact absurd hmem (List.not_mem_nil wh)
  | cons wh rest ih =>
    intro h
    obtain ⟨w, hmem, hnm, hsvc⟩ := h
    simp only [updateWebhooks]
    rcases List.mem_cons.mp hmem with rfl | hmem
    · rw [updateWebhook, if_neg (by simp [hnm]), hsvc, hnm]
    · cases h1 : updateWebhook name ca path wh with
      | error e =>
        simp only [updateWebhook] at h1
        by_cases hn : wh.name ≠ name
        · rw [if_pos hn] at h1; cases h1
        · rw [if_neg hn] at h1
          cases hsvc1 : wh.clientConfig.service with
          | none =>
            rw [hsvc1] at h1
            injection h1 with h1
            subst h1
            push_neg at hn
            rw [hn]
          | some svc => rw [hsvc1] at h1; cases h1
      | ok wh1 => rw [ih ⟨w, hmem, hnm, hsvc⟩]

/-! # Claim theorems -/

/-- C8: for every reconcile key, when leadership is not held, `Reconcile`
returns the distinguished skip signal (not an ok/failure outcome) and
performs zero store reads and zero writes — no side effects at all. -/
theorem c8_non_leader_no_op (env : ReconcilerEnv) (key : String)
    (h : env.isLeader = false) :
    Reconcile env key = (.skipped key, ⟨0, 0, 0, []⟩) := by
  simp [Reconcile, h]

theorem c8_non_leader_no_op_witness :
    Reconcile { sampleEnv sampleWebhookOk with isLeader := false } "k" =
      (.skipped "k", ⟨0, 0, 0, []⟩) :=
  c8_non_leader_no_op _ "k" rfl

/-- C9: when the observed configuration's targeted rule (the webhook entry
named like the configuration itself) has a nil service-based callback
target, `Reconcile` returns the configuration error `missingService` and
issues zero writes. -/
theorem c9_missing_service (env : ReconcilerEnv) (key : String)
    (data : List (String × List Nat)) (ca : List Nat)
    (m : MutatingWebhookConfiguration) (ns : NamespaceObj)
    (hL : env.isLeader = true) (hs : env.secret = some data)
    (hca : lookupB caCertKey data = some ca)
    (hm : env.mwh = some m) (hns : env.ns = some ns)
    (hsvc : ∃ wh ∈ m.webhooks, wh.name = m.name ∧ wh.clientConfig.service = none) :
    (Reconcile env key).1 = .failed (.missingService m.name) ∧
    (Reconcile env key).2.writes = [] := by
  have hupd := updateWebhooks_missing ca env.path hsvc
  have hfull : Reconcile env key = (.failed (.missingService m.name), ⟨1, 1, 1, []⟩) := by
    simp [Reconcile, reconcileMutatingWebhook, hL, hs, hca, hm, hns, hupd]
  rw [hfull]
  exact ⟨rfl, rfl⟩

theorem c9_missing_service_witness :
    (Reconcile (sampleEnv sampleWebhookNoSvc) "k").1 = .failed (.missingService "wh") ∧
    (Reconcile (sampleEnv sampleWebhookNoSvc) "k").2.writes = [] :=
  c9_missing_service (sampleEnv sampleWebhookNoSvc) "k" [(caCertKey, [7])] [7]
    { name := "wh", ownerReferences := [], webhooks := [sampleWebhookNoSvc] }
    { name := "ns", uid := "u" } rfl rfl (by decide) rfl rfl
    ⟨sampleWebhookNoSvc, List.mem_cons_self _ _, rfl, rfl⟩

/-- C7: `Reconcile` is idempotent — a successful pass issues at most one
write, and a second pass on the committed store succeeds with zero
writes (in particular, when the observed configuration already equals the
desired one the pass issues zero writes). -/
theorem c7_reconcile_idempotent (env : ReconcilerEnv) (key : String)
    (h : (Reconcile env key).1 = .ok) :
    (Reconcile env key).2.writes.length ≤ 1 ∧
    (Reconcile (commitWrites env (Reconcile env key).2) key).1 = .ok ∧
    (Reconcile (commitWrites env (Reconcile env key).2) key).2.writes = [] := by
  cases hL : env.isLeader with
  | false => simp [Reconcile, hL] at h
  | true =>
    cases hsec : env.secret with
    | none => simp [Reconcile, hL, hsec] at h
    | some data =>
      cases hca : lookupB caCertKey data with
      | none => simp [Reconcile, hL, hsec, hca] at h
      | some ca =>
        cases hmwh : env.mwh with
        | none => simp [Reconcile, reconcileMutatingWebhook, hL, hsec, hca, hmwh] at h
        | some cfg =>
          cases hns : env.ns with
          | none => simp [Reconcile, reconcileMutatingWebhook, hL, hsec, hca, hmwh, hns] at h
          | some ns =>
            cases hupd : updateWebhooks cfg.name ca env.path cfg.webhooks with
            | error e =>
              simp [Reconcile, reconcileMutatingWebhook, hL, hsec, hca, hmwh, hns, hupd] at h
            | ok whs =>
              have hfull0 : Reconcile env key =
                  (if cfg = ⟨cfg.name, [ownerRefOfNs ns], whs⟩
                   then ((.ok : Outcome), (⟨1, 1, 1, []⟩ : Effects))
                   else if env.updateFails = true
                   then (.failed .updateFailed,
                     ⟨1, 1, 1, [⟨cfg.name, [ownerRefOfNs ns], whs⟩]⟩)
                   else (.ok, ⟨1, 1, 1, [⟨cfg.name, [ownerRefOfNs ns], whs⟩]⟩)) := by
                simp [Reconcile, reconcileMutatingWebhook, hL, hsec, hca, hmwh, hns, hupd]
              by_cases heq : cfg = ⟨cfg.name, [ownerRefOfNs ns], whs⟩
              · rw [hfull0, if_pos heq]
                have hc : commitWrites env (⟨1, 1, 1, []⟩ : Effects) = env := rfl
                rw [hc, hfull0, if_pos heq]
                exact ⟨by simp, rfl, rfl⟩
              · rw [hfull0, if_neg heq] at h ⊢
                by_cases huf : env.updateFails = true
                · rw [if_pos huf] at h
                  simp at h
                · rw [if_neg huf] at h ⊢
                  have hupd2 := updateWebhooks_idem hupd
                  have h2 : Reconcile (commitWrites env
                      (⟨1, 1, 1, [⟨cfg.name, [ownerRefOfNs ns], whs⟩]⟩ : Effects)) key =
                      (.ok, ⟨1, 1, 1, []⟩) := by
                    simp [Reconcile, reconcileMutatingWebhook, commitWrites, hL, hsec,
                      hca, hns, hupd2]
                  rw [h2]
                  exact ⟨by simp, rfl, rfl⟩

theorem c7_reconcile_idempotent_witness :
    (Reconcile (sampleEnv sampleWebhookOk) "k").2.writes.length ≤ 1 ∧
    (Reconcile (commitWrites (sampleEnv sampleWebhookOk)
      (Reconcile (sampleEnv sampleWebhookOk) "k").2) "k").1 = .ok ∧
    (Reconcile (commitWrites (sampleEnv sampleWebhookOk)
      (Reconcile (sampleEnv sampleWebhookOk) "k").2) "k").2.writes = [] :=
  c7_reconcile_idempotent _ "k" (by decide)

/-- C5: `getPodAffinityValue` is the constant prefix `custom-pod-affinity-`
followed by the first 10 characters of the 64-character lowercase hex
encoding of the SHA-256 digest of the UTF-8 bytes of the workflow
identifier, and repeated calls with the same identifier agree. -/
theorem c5_derive_shape (w : String) :
    getPodAffinityValue w = "custom-pod-affinity-" ++ (sha256hex w).take 10 ∧
    (sha256hex w).length = 64 ∧
    ∀ w', w' = w → getPodAffinityValue w' = getPodAffinityValue w := by
  refine ⟨?_, ?_, fun w' hw => by rw [hw]⟩
  · show "custom-pod-affinity" ++ "-" ++ (sha256hex w).take 10 = _
    rw [show ("custom-pod-affinity" ++ "-" : String) = "custom-pod-affinity-" from rfl]
  · simp [sha256hex, sha256Words, wordBytes, byteToHex, String.length]

set_option maxRecDepth 4096 in
theorem c5_derive_shape_witness :
    getPodAffinityValue "wf-1" = "custom-pod-affinity-" ++ (sha256hex "wf-1").take 10 ∧
    (sha256hex "wf-1").length = 64 ∧
    getPodAffinityValue "wf-1" = getPodAffinityValue "wf-1" :=
  ⟨(c5_derive_shape "wf-1").1, (c5_derive_shape "wf-1").2.1,
    (c5_derive_shape "wf-1").2.2 "wf-1" rfl⟩

set_option maxRecDepth 4096 in
/-- The embedded SHA-256 agrees with the FIPS 180-4 test vector for
`"abc"` (validation of the hash embedding). -/
theorem sha256hex_abc :
    sha256hex "abc" = "ba7816bf8f01cfea414140de5dae2223b00361a396177a9cb410ff61f20015ad" := by
  decide

/-- C6: round-trip — applying the ordered operation sequence produced by
the patch generator for `(origin, target)` to `origin` yields exactly
`target` (canonical documents, where semantic equality coincides with
equality). -/
theorem c6_diff_roundtrip (origin target : Json)
    (h1 : wf origin = true) (h2 : wf target = true) :
    applyOps origin (diffVal origin target) = some target :=
  applyOps_diffVal h1 h2

theorem c6_diff_roundtrip_witness :
    applyOps (Json.obj [("a", .num 1), ("b", .arr [.null, .str "x"])])
      (diffVal (Json.obj [("a", .num 1), ("b", .arr [.null, .str "x"])])
        (Json.obj [("b", .arr [.bool true]), ("c", .num 3)])) =
      some (Json.obj [("b", .arr [.bool true]), ("c", .num 3)]) :=
  c6_diff_roundtrip _ _
    (by simp [wf, wfList, wfFields, sortedKeysB, strLt, charListLt])
    (by simp [wf, wfList, wfFields, sortedKeysB, strLt, charListLt])

/-- C1 (code bug): a request whose payload fails to decode is not denied.
The decode error is ignored, the zero-valued pod is used, and the
response is Allowed=true carrying a patch computed against the empty pod
(adding the unconditional test label). -/
theorem c1_decode_failure_swallowed :
    (Admit { object := none }).allowed = true ∧
    (Admit { object := none }).patchType = some .jsonPatch ∧
    (Admit { object := none }).patch =
      [.add [.key "metadata", .key "labels"] (.obj [("QuanTest", .str "hello1")])] := by
  refine ⟨rfl, rfl, ?_⟩
  simp [Admit, generateJsonPatch, admitTarget, emptyPod, podToJson, mapToJson,
    mutatePodAffinity, lookupS, insertS, diffVal, diffObjs, consStep,
    pipelineRunLabelKey, quanTestLabelKey, Option.getD]

/-- Shared helper: with the owning-workflow label present and the marker
annotation absent, the mutated pod's affinity is the merge of the
(possibly defaulted) observed affinity with the derived term. -/
theorem admitTarget_affinity_merge (pod : Pod) (w : String)
    (hw : lookupS pipelineRunLabelKey (pod.labels.getD []) = some w)
    (hm : lookupS affinityAssistantAnnotationKey (pod.annotations.getD []) = none) :
    (admitTarget pod).affinity =
      some (mergeAffinityWithAffinityAssistant (pod.affinity.getD { podAffinity := none })
        (getPodAffinityValue w)) := by
  simp [admitTarget, hw, mutatePodAffinity, hm]

/-- C4: a pod that carries the owning-workflow label `w`, has no existing
scheduling constraints, and has no marker annotation receives exactly one
required co-location term (topology key `kubernetes.io/hostname`, match
label `app.kubernetes.io/instance` bound to `getPodAffinityValue w`),
and the response patch adds the corresponding `/spec/affinity` value. -/
theorem c4_affinity_added (pod : Pod) (w : String)
    (hw : lookupS pipelineRunLabelKey (pod.labels.getD []) = some w)
    (hm : lookupS affinityAssistantAnnotationKey (pod.annotations.getD []) = none)
    (ha : pod.affinity = none) :
    (admitTarget pod).affinity = some
      { podAffinity := some { requiredDuringSchedulingIgnoredDuringExecution :=
          [{ labelSelector := some
               { matchLabels := [("app.kubernetes.io/instance", getPodAffinityValue w)],
                 matchExpressions := [] },
             topologyKey := "kubernetes.io/hostname" }] } } ∧
    Op.add [.key "spec", .key "affinity"]
        (.obj [("podAffinity", .obj [("requiredDuringSchedulingIgnoredDuringExecution",
          .arr [.obj [("labelSelector", .obj [("matchLabels",
              .obj [("app.kubernetes.io/instance", .str (getPodAffinityValue w))])]),
            ("topologyKey", .str "kubernetes.io/hostname")]])])])
      ∈ (Admit { object := some pod }).patch := by
  have htgt := admitTarget_affinity_merge pod w hw hm
  rw [ha] at htgt
  simp only [Option.getD_none, mergeAffinityWithAffinityAssistant,
    podAffinityTermUsingAffinityAssistant, labelInstanceKey, hostnameTopologyKey] at htgt
  constructor
  · rw [htgt]
    simp
  · simp [Admit, Option.getD_some, generateJsonPatch, podToJson, ha, htgt,
      affinityToJson, podAffinityToJson, termToJson, selectorToJson, mapToJson,
      diffVal, diffObjs, consStep]

/-- C10: a pod that already carries required co-location rules gets the
derived term appended (never replacing the existing rules), and a second
admission of the mutated pod appends the same term again, accumulating a
duplicate. -/
theorem c10_append_accumulates (pod : Pod) (w : String) (af : Affinity)
    (pa : PodAffinitySpec)
    (hw : lookupS pipelineRunLabelKey (pod.labels.getD []) = some w)
    (hm : lookupS affinityAssistantAnnotationKey (pod.annotations.getD []) = none)
    (ha : pod.affinity = some af) (hpa : af.podAffinity = some pa) :
    (admitTarget pod).affinity = some
      { podAffinity := some { requiredDuringSchedulingIgnoredDuringExecution :=
          pa.requiredDuringSchedulingIgnoredDuringExecution ++
            [podAffinityTermUsingAffinityAssistant (getPodAffinityValue w)] } } ∧
    (admitTarget (admitTarget pod)).affinity = some
      { podAffinity := some { requiredDuringSchedulingIgnoredDuringExecution :=
          pa.requiredDuringSchedulingIgnoredDuringExecution ++
            [podAffinityTermUsingAffinityAssistant (getPodAffinityValue w),
             podAffinityTermUsingAffinityAssistant (getPodAffinityValue w)] } } := by
  have h1 := admitTarget_affinity_merge pod w hw hm
  rw [ha] at h1
  simp only [Option.getD_some, mergeAffinityWithAffinityAssistant, hpa] at h1
  have hw2 : lookupS pipelineRunLabelKey ((admitTarget pod).labels.getD []) = some w := by
    rw [admitTarget_labels]
    simp only [Option.getD_some]
    rw [lookupS_insertS_ne _ (by decide)]
    exact hw
  have hm2 : lookupS affinityAssistantAnnotationKey
      ((admitTarget pod).annotations.getD []) = none := by
    rw [admitTarget_annotations]
    exact hm
  have h2 := admitTarget_affinity_merge (admitTarget pod) w hw2 hm2
  rw [h1] at h2
  simp only [Option.getD_some, mergeAffinityWithAffinityAssistant] at h2
  refine ⟨by rw [h1], ?_⟩
  rw [h2]
  simp

/-- The object diff of two identical field lists is empty. -/
theorem diffObjs_self (l : List (String × Json)) : diffObjs l l = [] := by
  induction l with
  | nil => simp [diffObjs]
  | cons kv rest ih =>
    obtain ⟨k, v⟩ := kv
    simp [diffObjs, diffVal_self', ih]

/-- C2 counterexample: an object that carries the marker annotation and
does not already carry the `QuanTest=hello1` label still gets a
non-empty response patch, refuting "the response patch is empty (or
absent)". -/
theorem c2_counterexample :
    (Admit { object := some samplePodMarked }).patch ≠ [] := by
  have h : (Admit { object := some samplePodMarked }).patch =
      [.add [.key "metadata", .key "labels"] (.obj [("QuanTest", .str "hello1")])] := by
    simp [Admit, samplePodMarked, generateJsonPatch, admitTarget, podToJson, mapToJson,
      mutatePodAffinity, lookupS, insertS, diffVal, diffObjs, consStep,
      pipelineRunLabelKey, quanTestLabelKey, affinityAssistantAnnotationKey, Option.getD]
  rw [h]
  simp

/-- C2 (amended): an object carrying the marker annotation receives no
scheduling-constraint mutation — its affinity and annotations are
unchanged, the decision is still allow, and every operation of the
returned patch targets the metadata section (where the unconditional
`QuanTest` test label lives); the patch is in general not empty. -/
theorem c2_marker_skips_affinity (pod : Pod) (aa : String)
    (hm : lookupS affinityAssistantAnnotationKey (pod.annotations.getD []) = some aa) :
    (Admit { object := some pod }).allowed = true ∧
    (admitTarget pod).affinity = pod.affinity ∧
    (admitTarget pod).annotations = pod.annotations ∧
    ∀ op ∈ (Admit { object := some pod }).patch,
      ∃ rest, op.path = Step.key "metadata" :: rest := by
  have haff : (admitTarget pod).affinity = pod.affinity := by
    simp only [admitTarget]
    cases hl : lookupS pipelineRunLabelKey (pod.labels.getD []) with
    | none => rfl
    | some pr => simp [mutatePodAffinity, hm]
  refine ⟨rfl, haff, admitTarget_annotations pod, ?_⟩
  intro op hop
  simp only [Admit, Option.getD_some, generateJsonPatch, podToJson,
    admitTarget_annotations, haff] at hop
  simp only [diffVal, diffObjs, diffObjs_self] at hop
  simp at hop
  rcases hop with ⟨o, _, rfl⟩
  exact ⟨o.path, consStep_path _ o⟩

/-- C3: `Admit` unconditionally sets the `QuanTest=hello1` label on the
target object, so whenever the incoming object does not already carry
exactly that label the returned patch is non-empty (in particular also
for marker-annotated objects). -/
theorem c3_unconditional_label (pod : Pod) :
    lookupS quanTestLabelKey ((admitTarget pod).labels.getD []) = some "hello1" ∧
    (lookupS quanTestLabelKey (pod.labels.getD []) ≠ some "hello1" →
      (Admit { object := some pod }).patch ≠ []) := by
  constructor
  · rw [admitTarget_labels]
    simp only [Option.getD_some]
    exact lookupS_insertS _ _ _
  · intro hne hnil
    simp only [Admit, Option.getD_some, generateJsonPatch, podToJson,
      admitTarget_annotations, admitTarget_labels] at hnil
    simp only [diffVal, diffObjs] at hnil
    simp at hnil
    obtain ⟨hM, _⟩ := hnil
    cases hpann : pod.annotations with
    | none =>
      simp only [hpann] at hM
      cases hplab : pod.labels with
      | none =>
        simp only [hplab] at hM
        simp [diffObjs, insertS, mapToJson] at hM
      | some m =>
        simp only [hplab] at hM
        simp only [Option.getD_some, List.nil_append] at hM
        simp [diffObjs] at hM
        have hme : m = insertS quanTestLabelKey "hello1" m :=
          diffVal_mapToJson_nil _ _ (by simpa [diffVal] using hM)
        have hl : lookupS quanTestLabelKey m = some "hello1" := by
          rw [hme]
          exact lookupS_insertS _ _ _
        exact hne (by simpa [hplab] using hl)
    | some anns =>
      simp only [hpann] at hM
      simp only [List.cons_append, List.nil_append] at hM
      simp [diffObjs, diffVal_self'] at hM
      cases hplab : pod.labels with
      | none =>
        simp only [hplab] at hM
        simp [diffObjs, insertS, mapToJson] at hM
      | some m =>
        simp only [hplab] at hM
        simp only [Option.getD_some, List.nil_append] at hM
        simp [diffObjs] at hM
        have hme : m = insertS quanTestLabelKey "hello1" m :=
          diffVal_mapToJson_nil _ _ (by simpa [diffVal] using hM)
        have hl : lookupS quanTestLabelKey m = some "hello1" := by
          rw [hme]
          exact lookupS_insertS _ _ _
        exact hne (by simpa [hplab] using hl)

theorem c2_marker_skips_affinity_witness :
    (Admit { object := some samplePodMarked }).allowed = true ∧
    (admitTarget samplePodMarked).affinity = samplePodMarked.affinity ∧
    (admitTarget samplePodMarked).annotations = samplePodMarked.annotations ∧
    ∀ op ∈ (Admit { object := some samplePodMarked }).patch,
      ∃ rest, op.path = Step.key "metadata" :: rest :=
  c2_marker_skips_affinity samplePodMarked "aa-0" (by decide)

theorem c3_unconditional_label_witness :
    lookupS quanTestLabelKey ((admitTarget samplePodMarked).labels.getD []) =
      some "hello1" ∧
    (Admit { object := some samplePodMarked }).patch ≠ [] :=
  ⟨(c3_unconditional_label samplePodMarked).1,
    (c3_unconditional_label samplePodMarked).2 (by decide)⟩

theorem c4_affinity_added_witness :
    (admitTarget samplePodRun).affinity = some
      { podAffinity := some { requiredDuringSchedulingIgnoredDuringExecution :=
          [{ labelSelector := some
               { matchLabels := [("app.kubernetes.io/instance", getPodAffinityValue "wf-1")],
                 matchExpressions := [] },
             topologyKey := "kubernetes.io/hostname" }] } } ∧
    Op.add [.key "spec", .key "affinity"]
        (.obj [("podAffinity", .obj [("requiredDuringSchedulingIgnoredDuringExecution",
          .arr [.obj [("labelSelector", .obj [("matchLabels",
              .obj [("app.kubernetes.io/instance", .str (getPodAffinityValue "wf-1"))])]),
            ("topologyKey", .str "kubernetes.io/hostname")]])])])
      ∈ (Admit { object := some samplePodRun }).patch :=
  c4_affinity_added samplePodRun "wf-1" (by decide) (by decide) rfl

theorem c10_append_accumulates_witness :
    (admitTarget samplePodWithAffinity).affinity = some
      { podAffinity := some { requiredDuringSchedulingIgnoredDuringExecution :=
          (⟨[⟨none, "zone"⟩]⟩ : PodAffinitySpec).requiredDuringSchedulingIgnoredDuringExecution
            ++ [podAffinityTermUsingAffinityAssistant (getPodAffinityValue "wf-1")] } } ∧
    (admitTarget (admitTarget samplePodWithAffinity)).affinity = some
      { podAffinity := some { requiredDuringSchedulingIgnoredDuringExecution :=
          (⟨[⟨none, "zone"⟩]⟩ : PodAffinitySpec).requiredDuringSchedulingIgnoredDuringExecution
            ++ [podAffinityTermUsingAffinityAssistant (getPodAffinityValue "wf-1"),
                podAffinityTermUsingAffinityAssistant (getPodAffinityValue "wf-1")] } } :=
  c10_append_accumulates samplePodWithAffinity "wf-1" ⟨some ⟨[⟨none, "zone"⟩]⟩⟩
    ⟨[⟨none, "zone"⟩]⟩ (by decide) (by decide) rfl rfl

end MutatingWebhook
